import Mathlib

/-!
# String-Pool: a fixed-capacity string interning pool

A shallow embedding of `Block.h`, `PoolString.h` and `Pool.h`.

* A `const char*` argument is the list of bytes found at the pointer; the
  C string it denotes stops before the first zero byte (`strlen`, `stringView`).
* `char*` values that point into `m_pool` are offsets into the buffer, and
  `T*` values that point into `m_blocks` are indices; both are `Option Nat`
  with `none` for `nullptr`.
* `std::unordered_map` is an association list with unique keys.  Its iteration
  order is not fixed by the standard; the list order stands for it.
* `std::hash<std::string_view>` is implementation defined: it is the field
  `hash` of `Params`.
* Behaviour that the language leaves undefined (a store or load outside
  `m_pool`, a dereferenced null pointer, a pointer moved beyond one past the end
  of `m_pool`, overflow of the `int` loop counter of the constructor) is the
  outcome `undefined` / `none`.
* `occurrences` is a `size_t`.  Its decrement wraps at zero as in the source.
  Its increment is not reduced modulo `2 ^ 64`: every increment belongs to a
  `findOrCreate` call, and no execution performs `2 ^ 64` of them.
-/

namespace StringPool

/-! ## Parameters -/

/-- Template arguments of `Pool<Block<PHYSICAL_SIZE>, TSize>` together with the
hash function supplied by the standard library. -/
structure Params where
  PHYSICAL_SIZE : Nat
  TSize : Nat
  hash : List Nat → Nat

/-- Largest value of the type `int`. -/
def INT_MAX : Nat := 2147483647

/-- Number of values of the type `size_t`. -/
def SIZE_MOD : Nat := 2 ^ 64

/-! ## C strings -/

/-- The characters of the C string at a pointer: everything before the first
zero byte (`std::string_view(const char*)`). -/
def stringView : List Nat → List Nat
  | [] => []
  | c :: cs => if c = 0 then [] else c :: stringView cs

/-- Length of the C string at a pointer. -/
def strlen (s : List Nat) : Nat := (stringView s).length

/-- Store one byte into the buffer; a store outside the buffer is undefined. -/
def store (mem : List Nat) (a v : Nat) : Option (List Nat) :=
  if a < mem.length then some (mem.set a v) else none

/-- Scan a buffer suffix for the terminator; running off the buffer is
undefined. -/
def scanCStr : List Nat → Option (List Nat)
  | [] => none
  | c :: cs => if c = 0 then some [] else (scanCStr cs).map (fun r => c :: r)

/-- Read the zero-terminated string that starts at offset `addr` of the
buffer. -/
def readCStr (mem : List Nat) (addr : Nat) : Option (List Nat) :=
  scanCStr (mem.drop addr)

/-! ## Block.h -/

/-- One slot: `Block<TBlockSize>`. -/
structure Block where
  m_size : Nat
  m_dataSize : Nat
  m_addressStart : Option Nat
  deriving DecidableEq, Repr

namespace Block

/-- Default constructor `Block()`. -/
def default (TBlockSize : Nat) : Block :=
  { m_size := TBlockSize, m_dataSize := 0, m_addressStart := none }

/-- Member `data()`. -/
def data (b : Block) : Option Nat := b.m_addressStart

/-- Member `logicalSize()`. -/
def logicalSize (b : Block) : Nat := b.m_dataSize

/-- Member `matches(blockStartAddress)`. -/
def matchesAddress (b : Block) (blockStartAddress : Option Nat) : Bool :=
  b.m_addressStart == blockStartAddress

/-- Member `setStartAddress(start)`. -/
def setStartAddress (b : Block) (start : Option Nat) : Block :=
  { b with m_addressStart := start }

/-- The copy loop of `write`: `fuel` iterations remain, `ii` is the loop
counter, each iteration stores `data[ii]` at `m_addressStart[ii]`. -/
def writeLoop (data : List Nat) (start : Nat) : Nat → Nat → List Nat → Option (List Nat)
  | 0, _, mem => some mem
  | fuel + 1, ii, mem =>
    match store mem (start + ii) (data.getD ii 0) with
    | none => none
    | some mem1 => writeLoop data start fuel (ii + 1) mem1

/-- Member `write(data)`: copies `strlen(data)` bytes and a terminator to the
start address.  No field of the block is assigned. -/
def write (b : Block) (mem : List Nat) (data : List Nat) : Option (Block × List Nat) :=
  match b.m_addressStart with
  | none => none
  | some start =>
    let dataLength := strlen data
    match writeLoop data start dataLength 0 mem with
    | none => none
    | some mem1 =>
      match store mem1 (start + dataLength) 0 with
      | none => none
      | some mem2 => some (b, mem2)

/-- Member `clean()`. -/
def clean (b : Block) : Block := { b with m_dataSize := 0 }

end Block

/-! ## PoolString.h -/

/-- The two closures that `findOrCreate` passes as `cleanup`: the empty lambda
and `[this, data]() { this->free(data); }`. -/
inductive Cleanup where
  | noop
  | freeData (data : Option Nat)
  deriving DecidableEq, Repr

/-- The handle `PoolString`. -/
structure PoolString where
  m_data : Option Nat
  m_cleanup : Cleanup
  deriving DecidableEq, Repr

/-! ## Pool.h -/

/-- Value type of the deduplication map. -/
structure PoolEntry where
  block : Option Nat
  occurrences : Nat
  deriving DecidableEq, Repr

/-- A value-initialised `PoolEntry`, as `operator[]` inserts for a new key. -/
def PoolEntry.zero : PoolEntry := { block := none, occurrences := 0 }

/-- `m.find(k)`, as the mapped value when the key is present. -/
def mapFind (m : List (Nat × PoolEntry)) (k : Nat) : Option PoolEntry :=
  match m with
  | [] => none
  | (k1, e) :: rest => if k1 = k then some e else mapFind rest k

/-- `m[k] = v`: replaces the value of a present key, inserts otherwise. -/
def mapAssign (k : Nat) (v : PoolEntry) : List (Nat × PoolEntry) → List (Nat × PoolEntry)
  | [] => [(k, v)]
  | (k1, e) :: rest => if k1 = k then (k, v) :: rest else (k1, e) :: mapAssign k v rest

/-- `m.erase(k)`. -/
def mapErase (k : Nat) (m : List (Nat × PoolEntry)) : List (Nat × PoolEntry) :=
  m.filter (fun kv => kv.1 != k)

/-- Data members of `Pool<T, TSize>` (the mutex apart). -/
structure Pool where
  m_allocatedBlocks : List (Nat × PoolEntry)
  m_freeBlocks : List (Option Nat)
  m_pool : List Nat
  m_blocks : List Block
  deriving DecidableEq, Repr

/-- Result of a call that may throw `PoolOutOfMemory`. -/
inductive Outcome (α : Type) where
  | returned (value : α) (pool : Pool)
  | threw (pool : Pool)
  | undefined
  deriving DecidableEq, Repr

namespace Pool

/-- The loop of the constructor: `fuel` bounds the iterations left, `ii` is the
counter and `nextAddressToMark` the running offset into `m_pool`.
`nextAddressToMark += stepSize` is pointer arithmetic: a result beyond one past
the end of `m_pool` is undefined.  `ii` is an `int`: incrementing it past
`INT_MAX` is undefined. -/
def constructLoop (stepSize : Nat) : Nat → Nat → Nat → Pool → Option Pool
  | 0, ii, _, p => if ii < p.m_blocks.length then none else some p
  | fuel + 1, ii, nextAddressToMark, p =>
    if ii < p.m_blocks.length then
      let p1 : Pool :=
        { p with
          m_blocks := p.m_blocks.modify (fun b => b.setStartAddress (some nextAddressToMark)) ii,
          m_freeBlocks := p.m_freeBlocks ++ [some ii] }
      if nextAddressToMark + stepSize ≤ p.m_pool.length then
        if ii + 1 ≤ INT_MAX then
          constructLoop stepSize fuel (ii + 1) (nextAddressToMark + stepSize) p1
        else none
      else none
    else some p

/-- Constructor `Pool(startAddress)`; the argument is ignored by the source.
`garbage` gives the indeterminate initial bytes of `m_pool`, whose bound
`T::PHYSICAL_SIZE * TSize` is a `size_t` product. -/
def construct (P : Params) (garbage : Nat → Nat) : Option Pool :=
  let stepSize := 1 * P.PHYSICAL_SIZE
  constructLoop stepSize P.TSize 0 0
    { m_allocatedBlocks := [],
      m_freeBlocks := [],
      m_pool := (List.range ((P.PHYSICAL_SIZE * P.TSize) % SIZE_MOD)).map garbage,
      m_blocks := List.replicate P.TSize (Block.default P.PHYSICAL_SIZE) }

/-- Private member `hashKey`. -/
def hashKey (P : Params) (string : List Nat) : Nat := P.hash (stringView string)

/-- Private member `hasString`. -/
def hasString (P : Params) (p : Pool) (string : List Nat) : Bool :=
  let lookupKey := hashKey P string
  match mapFind p.m_allocatedBlocks lookupKey with
  | none => false
  | some e => decide (e.occurrences > 0)

/-- Member `maxStringSize`. -/
def maxStringSize (P : Params) (_p : Pool) : Nat := P.PHYSICAL_SIZE

/-- Member `numBytes`. -/
def numBytes (P : Params) (_p : Pool) : Nat := (P.PHYSICAL_SIZE * P.TSize) % SIZE_MOD

/-- Member `countAvailable`. -/
def countAvailable (p : Pool) : Nat := p.m_freeBlocks.length

/-- Member `countReserved`: an unsigned subtraction. -/
def countReserved (p : Pool) : Nat :=
  (((p.m_blocks.length : Int) - (p.m_freeBlocks.length : Int)) % (SIZE_MOD : Int)).toNat

/-- Member `countFor`. -/
def countFor (P : Params) (p : Pool) (rawString : List Nat) : Nat :=
  if hasString P p rawString then
    match mapFind p.m_allocatedBlocks (hashKey P rawString) with
    | some e => e.occurrences
    | none => 0
  else 0

/-- One iteration of the loop of `reset`. -/
def resetStep (p : Pool) (allocatedBlock : Nat × PoolEntry) : Option Pool :=
  match allocatedBlock.2.block with
  | none => some p
  | some i =>
    match p.m_blocks[i]? with
    | none => none
    | some b =>
      some { p with
        m_blocks := p.m_blocks.set i b.clean,
        m_freeBlocks := p.m_freeBlocks ++ [some i] }

/-- The loop of `reset` over the entries of the map. -/
def resetLoop : List (Nat × PoolEntry) → Pool → Option Pool
  | [], p => some p
  | allocatedBlock :: rest, p =>
    match resetStep p allocatedBlock with
    | none => none
    | some p1 => resetLoop rest p1

/-- Member `reset`. -/
def reset (p : Pool) : Option Pool :=
  match resetLoop p.m_allocatedBlocks p with
  | none => none
  | some p1 => some { p1 with m_allocatedBlocks := [] }

/-- Private member `tryAllocate`. -/
def tryAllocate (P : Params) (p : Pool) (rawString : List Nat) : Outcome (Option Nat) :=
  let fitsBlock := decide (strlen rawString + 1 ≤ P.PHYSICAL_SIZE)
  if !fitsBlock then .returned none p
  else if hasString P p rawString then
    let lookupKey := hashKey P rawString
    let e := (mapFind p.m_allocatedBlocks lookupKey).getD PoolEntry.zero
    let e1 : PoolEntry := { e with occurrences := e.occurrences + 1 }
    .returned e1.block { p with m_allocatedBlocks := mapAssign lookupKey e1 p.m_allocatedBlocks }
  else
    let hasBlocksAvailable := decide (p.m_freeBlocks.length > 0)
    if !hasBlocksAvailable then .threw p
    else
      match p.m_freeBlocks.getLast? with
      | none => .undefined
      | some selectedBlock =>
        let p1 : Pool := { p with m_freeBlocks := p.m_freeBlocks.dropLast }
        match selectedBlock with
        | none => .undefined
        | some i =>
          match p1.m_blocks[i]? with
          | none => .undefined
          | some b =>
            match b.write p1.m_pool rawString with
            | none => .undefined
            | some (b1, mem1) =>
              let p2 : Pool := { p1 with m_pool := mem1, m_blocks := p1.m_blocks.set i b1 }
              let poolEntry : PoolEntry := { block := selectedBlock, occurrences := 1 }
              .returned selectedBlock
                { p2 with
                  m_allocatedBlocks := mapAssign (hashKey P rawString) poolEntry p2.m_allocatedBlocks }

/-- Private member `free`. -/
def free (P : Params) (p : Pool) (rawString : List Nat) : Pool :=
  if hasString P p rawString then
    let lookupKey := hashKey P rawString
    let e := (mapFind p.m_allocatedBlocks lookupKey).getD PoolEntry.zero
    let entry : PoolEntry :=
      { e with occurrences := if e.occurrences = 0 then SIZE_MOD - 1 else e.occurrences - 1 }
    let p1 : Pool := { p with m_allocatedBlocks := mapAssign lookupKey entry p.m_allocatedBlocks }
    if entry.occurrences = 0 then
      { p1 with
        m_freeBlocks := p1.m_freeBlocks ++ [entry.block],
        m_allocatedBlocks := mapErase lookupKey p1.m_allocatedBlocks }
    else p1
  else p

/-- Member `findOrCreate`. -/
def findOrCreate (P : Params) (p : Pool) (rawString : List Nat) : Outcome PoolString :=
  match tryAllocate P p rawString with
  | .undefined => .undefined
  | .threw p1 => .threw p1
  | .returned none p1 => .returned { m_data := none, m_cleanup := .noop } p1
  | .returned (some i) p1 =>
    match p1.m_blocks[i]? with
    | none => .undefined
    | some block =>
      let data := block.data
      .returned { m_data := data, m_cleanup := .freeData data } p1

/-- Destructor of `PoolString`: runs `m_cleanup`.  The closure built by
`findOrCreate` reads its argument from the buffer at the time of the call. -/
def release (P : Params) (p : Pool) (h : PoolString) : Option Pool :=
  match h.m_cleanup with
  | .noop => some p
  | .freeData none => none
  | .freeData (some a) =>
    match readCStr p.m_pool a with
    | none => none
    | some s => some (free P p s)

end Pool

/-! ## Callers: the pool together with the handles that are alive -/

/-- A handle that has not been destroyed yet, with the argument of the
`findOrCreate` call that returned it. -/
structure Live where
  handle : PoolString
  content : List Nat
  deriving DecidableEq, Repr

/-- The pool and the handles its callers still hold. -/
structure Sys where
  pool : Pool
  live : List Live
  deriving DecidableEq, Repr

namespace Sys

/-- A caller runs `findOrCreate(c)` and keeps the handle.  When the call throws
no handle comes into being. -/
def intern (P : Params) (s : Sys) (c : List Nat) : Option Sys :=
  match Pool.findOrCreate P s.pool c with
  | .undefined => none
  | .threw p1 => some { pool := p1, live := s.live }
  | .returned h p1 => some { pool := p1, live := s.live ++ [{ handle := h, content := c }] }

/-- The `i`-th live handle is destroyed. -/
def release (P : Params) (s : Sys) (i : Nat) : Option Sys :=
  match s.live[i]? with
  | none => none
  | some l =>
    match Pool.release P s.pool l.handle with
    | none => none
    | some p1 => some { pool := p1, live := s.live.eraseIdx i }

/-- A caller runs `reset()`; the handles stay where they are. -/
def reset (s : Sys) : Option Sys :=
  match Pool.reset s.pool with
  | none => none
  | some p1 => some { pool := p1, live := s.live }

end Sys

/-- States a program can bring a pool into: construction, then any sequence of
`findOrCreate` calls, handle destructions and `reset` calls.  `resetOk` says in
which states callers run `reset`. -/
inductive Reachable (P : Params) (resetOk : Sys → Prop) : Sys → Prop
  | init (garbage : Nat → Nat) (p : Pool) :
      Pool.construct P garbage = some p → Reachable P resetOk { pool := p, live := [] }
  | intern (s : Sys) (c : List Nat) (s1 : Sys) :
      Reachable P resetOk s → Sys.intern P s c = some s1 → Reachable P resetOk s1
  | release (s : Sys) (i : Nat) (s1 : Sys) :
      Reachable P resetOk s → Sys.release P s i = some s1 → Reachable P resetOk s1
  | reset (s : Sys) (s1 : Sys) :
      Reachable P resetOk s → resetOk s → Sys.reset s = some s1 → Reachable P resetOk s1

/-- The handles of `k` successive `findOrCreate(c)` calls, all kept alive, and
the pool afterwards. -/
def internTimes (P : Params) : Nat → Pool → List Nat → Option (List PoolString × Pool)
  | 0, p, _ => some ([], p)
  | k + 1, p, c =>
    match Pool.findOrCreate P p c with
    | .returned h p1 =>
      match internTimes P k p1 c with
      | some (hs, p2) => some (h :: hs, p2)
      | none => none
    | _ => none

/-- The string stored in the block of a map entry, read through `data()`. -/
def Pool.stored (p : Pool) (e : PoolEntry) : Option (List Nat) :=
  match e.block with
  | none => none
  | some i =>
    match p.m_blocks[i]? with
    | none => none
    | some b =>
      match b.data with
      | none => none
      | some a => readCStr p.m_pool a

/-- Number of times a pointer to slot `i` occurs in a list of block pointers. -/
def slotCount (i : Nat) (l : List (Option Nat)) : Nat :=
  l.countP (fun x => decide (x = some i))

/-- Number of times slot `i` occurs in the free list. -/
def Pool.freeAt (p : Pool) (i : Nat) : Nat := slotCount i p.m_freeBlocks

/-- Number of map entries whose block is slot `i`. -/
def Pool.entriesAt (p : Pool) (i : Nat) : Nat :=
  slotCount i (p.m_allocatedBlocks.map (fun kv => kv.2.block))

/-- Number of live valid handles that were obtained for a content with hash
key `k`. -/
def Sys.liveFor (P : Params) (s : Sys) (k : Nat) : Nat :=
  s.live.countP (fun l => l.handle.m_data.isSome && decide (Pool.hashKey P l.content = k))

/-- Well-formedness of the pool that every operation keeps. -/
structure Inv (P : Params) (p : Pool) : Prop where
  tsize : P.TSize ≤ INT_MAX
  mem_len : p.m_pool.length = P.PHYSICAL_SIZE * P.TSize
  blocks_len : p.m_blocks.length = P.TSize
  blocks_addr : ∀ i b, p.m_blocks[i]? = some b → b.m_addressStart = some (i * P.PHYSICAL_SIZE)
  keys_nodup : (p.m_allocatedBlocks.map Prod.fst).Nodup
  occ_pos : ∀ kv ∈ p.m_allocatedBlocks, 1 ≤ kv.2.occurrences
  slots : (p.m_freeBlocks ++ p.m_allocatedBlocks.map (fun kv => kv.2.block)).Perm
    ((List.range P.TSize).map some)
  content : ∀ kv ∈ p.m_allocatedBlocks, ∀ i, kv.2.block = some i →
    ∃ s, readCStr p.m_pool (i * P.PHYSICAL_SIZE) = some s ∧ P.hash s = kv.1 ∧
      s.length + 1 ≤ P.PHYSICAL_SIZE

/-- Agreement between the map and the live handles, kept as long as `reset`
runs only when no valid handle is alive. -/
structure HInv (P : Params) (s : Sys) : Prop where
  handles : ∀ l ∈ s.live,
    (l.handle.m_data = none ∧ l.handle.m_cleanup = .noop) ∨
    ∃ i e, l.handle.m_data = some (i * P.PHYSICAL_SIZE) ∧
      l.handle.m_cleanup = .freeData (some (i * P.PHYSICAL_SIZE)) ∧
      mapFind s.pool.m_allocatedBlocks (Pool.hashKey P l.content) = some e ∧ e.block = some i
  counts : ∀ kv ∈ s.pool.m_allocatedBlocks, kv.2.occurrences = Sys.liveFor P s kv.1

/-- A pool of one slot of four bytes whose hash sends every string to the same
key. -/
def sampleParams : Params := { PHYSICAL_SIZE := 4, TSize := 1, hash := fun _ => 0 }

/-- The sample pool right after construction over zeroed storage. -/
def sampleFresh : Sys :=
  { pool :=
      { m_allocatedBlocks := [],
        m_freeBlocks := [some 0],
        m_pool := [0, 0, 0, 0],
        m_blocks := [{ m_size := 4, m_dataSize := 0, m_addressStart := some 0 }] },
    live := [] }

/-- The sample pool after `findOrCreate` of the one-character string `[7]`. -/
def sampleFull : Sys :=
  { pool :=
      { m_allocatedBlocks := [(0, { block := some 0, occurrences := 1 })],
        m_freeBlocks := [],
        m_pool := [7, 0, 0, 0],
        m_blocks := [{ m_size := 4, m_dataSize := 0, m_addressStart := some 0 }] },
    live := [{ handle := { m_data := some 0, m_cleanup := .freeData (some 0) }, content := [7] }] }

/-- A pool of one slot of four bytes whose hash is the length of the string. -/
def lengthParams : Params := { PHYSICAL_SIZE := 4, TSize := 1, hash := fun s => s.length }

/-- The pool of `lengthParams` after construction over zeroed storage and
`findOrCreate` of the one-character string `[7]`. -/
def lengthFull : Sys :=
  { pool :=
      { m_allocatedBlocks := [(1, { block := some 0, occurrences := 1 })],
        m_freeBlocks := [],
        m_pool := [7, 0, 0, 0],
        m_blocks := [{ m_size := 4, m_dataSize := 0, m_addressStart := some 0 }] },
    live := [{ handle := { m_data := some 0, m_cleanup := .freeData (some 0) }, content := [7] }] }

/-- Subscript `m[k]` of `std::unordered_map`: the mapped value, and the map
after the call, which has gained a value-initialised entry when the key was
absent. -/
def mapSubscript (m : List (Nat × PoolEntry)) (k : Nat) : PoolEntry × List (Nat × PoolEntry) :=
  match mapFind m k with
  | some e => (e, m)
  | none => (PoolEntry.zero, m ++ [(k, PoolEntry.zero)])

/-- Private member `hasString`, which is not `const`, with the pool it leaves
behind: the right operand of `&&` subscripts the map only when `find` found the
key. -/
def Pool.hasStringM (P : Params) (p : Pool) (string : List Nat) : Bool × Pool :=
  let lookupKey := Pool.hashKey P string
  if (mapFind p.m_allocatedBlocks lookupKey).isSome then
    let r := mapSubscript p.m_allocatedBlocks lookupKey
    (decide (r.1.occurrences > 0), { p with m_allocatedBlocks := r.2 })
  else (false, p)

/-- Member `countFor`, which is not `const`, with the pool it leaves behind:
the conditional operator subscripts the map only when `hasString` is true. -/
def Pool.countForM (P : Params) (p : Pool) (rawString : List Nat) : Nat × Pool :=
  let r := Pool.hasStringM P p rawString
  if r.1 then
    let r1 := mapSubscript r.2.m_allocatedBlocks (Pool.hashKey P rawString)
    (r1.1.occurrences, { r.2 with m_allocatedBlocks := r1.2 })
  else (0, r.2)

/-- One call made by the callers of the pool, between construction and
`reset`. -/
inductive Op where
  | intern (c : List Nat)
  | release (i : Nat)
  | countFor (c : List Nat)
  deriving DecidableEq, Repr

/-- The state after one call. -/
def Sys.step (P : Params) (s : Sys) : Op → Option Sys
  | .intern c => Sys.intern P s c
  | .release i => Sys.release P s i
  | .countFor c => some { pool := (Pool.countForM P s.pool c).2, live := s.live }

/-- The state after a sequence of calls. -/
def Sys.run (P : Params) : Sys → List Op → Option Sys
  | s, [] => some s
  | s, op :: ops =>
    match Sys.step P s op with
    | none => none
    | some s1 => Sys.run P s1 ops

/-- A pool of `2 ^ 31 + 1` slots of one byte. -/
def hugeParams : Params := { PHYSICAL_SIZE := 1, TSize := 2147483649, hash := fun _ => 0 }

/-- The pool of `lengthParams` after `findOrCreate` of `[7]` and then of `[8]`,
which has the hash key of `[7]`: one entry, two live handles. -/
def lengthShared : Sys :=
  { pool :=
      { m_allocatedBlocks := [(1, { block := some 0, occurrences := 2 })],
        m_freeBlocks := [],
        m_pool := [7, 0, 0, 0],
        m_blocks := [{ m_size := 4, m_dataSize := 0, m_addressStart := some 0 }] },
    live := [{ handle := { m_data := some 0, m_cleanup := .freeData (some 0) }, content := [7] },
             { handle := { m_data := some 0, m_cleanup := .freeData (some 0) }, content := [8] }] }

/-- The state `lengthShared` after the handle obtained for `[7]` is released:
the only live handle is the one obtained for `[8]`. -/
def lengthLeftover : Sys :=
  { pool :=
      { m_allocatedBlocks := [(1, { block := some 0, occurrences := 1 })],
        m_freeBlocks := [],
        m_pool := [7, 0, 0, 0],
        m_blocks := [{ m_size := 4, m_dataSize := 0, m_addressStart := some 0 }] },
    live := [{ handle := { m_data := some 0, m_cleanup := .freeData (some 0) }, content := [8] }] }

/-- Callers may run `reset` at any time, also while handles are alive. -/
def anyTime : Sys → Prop := fun _ => True

/-- Callers never run `reset`. -/
def never : Sys → Prop := fun _ => False

/-- Callers run `reset` only when no valid handle is alive. -/
def noLiveHandle : Sys → Prop := fun s => ∀ l ∈ s.live, l.handle.m_data = none

end StringPool

namespace StringPool

/-! ## The map operations -/

theorem mapFind_eq_none_iff (m : List (Nat × PoolEntry)) (k : Nat) :
    mapFind m k = none ↔ k ∉ m.map Prod.fst := by
  induction m with
  | nil => simp [mapFind]
  | cons kv rest ih =>
    obtain ⟨k1, e⟩ := kv
    by_cases h : k1 = k
    · simp [mapFind, h]
    · simp only [mapFind, h, ↓reduceIte, ih, List.map_cons, List.mem_cons, not_or]
      exact ⟨fun hh => ⟨fun h' => h h'.symm, hh⟩, fun hh => hh.2⟩

theorem mem_of_mapFind {m : List (Nat × PoolEntry)} {k : Nat} {e : PoolEntry}
    (h : mapFind m k = some e) : (k, e) ∈ m := by
  induction m with
  | nil => simp [mapFind] at h
  | cons kv rest ih =>
    obtain ⟨k1, e1⟩ := kv
    by_cases hk : k1 = k
    · simp [mapFind, hk] at h
      simp [hk, h]
    · simp only [mapFind, hk, ↓reduceIte] at h
      exact List.mem_cons_of_mem _ (ih h)

theorem mapFind_of_mem {m : List (Nat × PoolEntry)} {k : Nat} {e : PoolEntry}
    (hn : (m.map Prod.fst).Nodup) (h : (k, e) ∈ m) : mapFind m k = some e := by
  induction m with
  | nil => simp at h
  | cons kv rest ih =>
    obtain ⟨k1, e1⟩ := kv
    simp only [List.map_cons, List.nodup_cons] at hn
    rcases List.mem_cons.1 h with h1 | h1
    · cases h1
      simp [mapFind]
    · have hk : k1 ≠ k := by
        rintro rfl
        exact hn.1 (List.mem_map.2 ⟨(k1, e), h1, rfl⟩)
      simp only [mapFind, hk, ↓reduceIte]
      exact ih hn.2 h1

theorem mapAssign_of_absent {m : List (Nat × PoolEntry)} {k : Nat} (v : PoolEntry)
    (h : mapFind m k = none) : mapAssign k v m = m ++ [(k, v)] := by
  induction m with
  | nil => simp [mapAssign]
  | cons kv rest ih =>
    obtain ⟨k1, e1⟩ := kv
    by_cases hk : k1 = k
    · simp [mapFind, hk] at h
    · simp only [mapFind, hk, ↓reduceIte] at h
      simp [mapAssign, hk, ih h]

theorem mapFind_mapAssign (m : List (Nat × PoolEntry)) (k k2 : Nat) (v : PoolEntry) :
    mapFind (mapAssign k v m) k2 = if k2 = k then some v else mapFind m k2 := by
  induction m with
  | nil =>
    by_cases h : k2 = k
    · simp [mapAssign, mapFind, h]
    · have h' : ¬ k = k2 := fun hh => h hh.symm
      simp [mapAssign, mapFind, h, h']
  | cons kv rest ih =>
    obtain ⟨k1, e1⟩ := kv
    by_cases hk : k1 = k
    · subst hk
      by_cases h : k2 = k1
      · simp [mapAssign, mapFind, h]
      · have h' : ¬ k1 = k2 := fun hh => h hh.symm
        simp [mapAssign, mapFind, h, h']
    · by_cases h1 : k1 = k2
      · have h2 : ¬ k2 = k := by rw [← h1]; exact hk
        simp [mapAssign, mapFind, hk, h1, h2]
      · simp [mapAssign, mapFind, hk, h1, ih]

theorem map_fst_mapAssign_of_present {m : List (Nat × PoolEntry)} {k : Nat} {e : PoolEntry}
    (v : PoolEntry) (h : mapFind m k = some e) :
    (mapAssign k v m).map Prod.fst = m.map Prod.fst := by
  induction m with
  | nil => simp [mapFind] at h
  | cons kv rest ih =>
    obtain ⟨k1, e1⟩ := kv
    by_cases hk : k1 = k
    · simp [mapAssign, hk]
    · simp only [mapFind, hk, ↓reduceIte] at h
      simp [mapAssign, hk, ih h]

theorem map_block_mapAssign_of_present {m : List (Nat × PoolEntry)} {k : Nat} {e : PoolEntry}
    (v : PoolEntry) (h : mapFind m k = some e) (hv : v.block = e.block) :
    (mapAssign k v m).map (fun kv => kv.2.block) = m.map (fun kv => kv.2.block) := by
  induction m with
  | nil => simp [mapFind] at h
  | cons kv rest ih =>
    obtain ⟨k1, e1⟩ := kv
    by_cases hk : k1 = k
    · simp [mapFind, hk] at h
      simp [mapAssign, hk, hv, h]
    · simp only [mapFind, hk, ↓reduceIte] at h
      simp [mapAssign, hk, ih h]

theorem length_mapAssign_of_present {m : List (Nat × PoolEntry)} {k : Nat} {e : PoolEntry}
    (v : PoolEntry) (h : mapFind m k = some e) : (mapAssign k v m).length = m.length := by
  have := congrArg List.length (map_fst_mapAssign_of_present v h)
  simpa using this

theorem mem_iff_mapFind {m : List (Nat × PoolEntry)} (hn : (m.map Prod.fst).Nodup)
    (kv : Nat × PoolEntry) : kv ∈ m ↔ mapFind m kv.1 = some kv.2 :=
  ⟨fun h => mapFind_of_mem hn h, fun h => mem_of_mapFind h⟩

theorem nodup_mapAssign {m : List (Nat × PoolEntry)} (k : Nat) (v : PoolEntry)
    (hn : (m.map Prod.fst).Nodup) : ((mapAssign k v m).map Prod.fst).Nodup := by
  cases h : mapFind m k with
  | none =>
    rw [mapAssign_of_absent v h]
    simp only [List.map_append, List.map_cons, List.map_nil]
    refine List.Nodup.append hn (List.nodup_singleton _) ?_
    intro x hx hx2
    simp only [List.mem_singleton] at hx2
    subst hx2
    exact (mapFind_eq_none_iff m x).1 h hx
  | some e => rw [map_fst_mapAssign_of_present v h]; exact hn

theorem mem_mapAssign {m : List (Nat × PoolEntry)} {k : Nat} {v : PoolEntry}
    (hn : (m.map Prod.fst).Nodup) {kv : Nat × PoolEntry} (h : kv ∈ mapAssign k v m) :
    kv = (k, v) ∨ (kv ∈ m ∧ kv.1 ≠ k) := by
  have h1 := (mem_iff_mapFind (nodup_mapAssign k v hn) kv).1 h
  rw [mapFind_mapAssign] at h1
  by_cases hk : kv.1 = k
  · simp only [hk, ↓reduceIte, Option.some.injEq] at h1
    left
    exact Prod.ext hk h1.symm
  · simp only [hk, ↓reduceIte] at h1
    exact Or.inr ⟨mem_of_mapFind h1, hk⟩

theorem mem_mapErase {m : List (Nat × PoolEntry)} {k : Nat} {kv : Nat × PoolEntry} :
    kv ∈ mapErase k m ↔ kv ∈ m ∧ kv.1 ≠ k := by
  simp [mapErase]

theorem mapFind_mapErase (m : List (Nat × PoolEntry)) (k k2 : Nat) :
    mapFind (mapErase k m) k2 = if k2 = k then none else mapFind m k2 := by
  induction m with
  | nil => simp [mapErase, mapFind]
  | cons kv rest ih =>
    obtain ⟨k1, e1⟩ := kv
    simp only [mapErase] at ih
    by_cases hk : k1 = k
    · subst hk
      by_cases h : k2 = k1
      · subst h
        simpa [mapErase, List.filter_cons] using ih
      · have h' : ¬ k1 = k2 := fun hh => h hh.symm
        simp [mapErase, List.filter_cons, ih, h, mapFind, h']
    · by_cases h1 : k1 = k2
      · have h2 : ¬ k2 = k := by rw [← h1]; exact hk
        simp [mapErase, List.filter_cons, hk, mapFind, h1, h2]
      · simp [mapErase, List.filter_cons, hk, mapFind, h1, ih]

theorem nodup_mapErase {m : List (Nat × PoolEntry)} (k : Nat)
    (hn : (m.map Prod.fst).Nodup) : ((mapErase k m).map Prod.fst).Nodup :=
  List.Nodup.sublist (List.Sublist.map _ (List.filter_sublist _)) hn

theorem mapErase_of_absent {m : List (Nat × PoolEntry)} {k : Nat}
    (h : mapFind m k = none) : mapErase k m = m := by
  rw [mapFind_eq_none_iff] at h
  simp only [mapErase, List.filter_eq_self]
  intro kv hkv
  simp only [bne_iff_ne, ne_eq]
  rintro rfl
  exact h (List.mem_map.2 ⟨kv, hkv, rfl⟩)

theorem perm_mapErase {m : List (Nat × PoolEntry)} {k : Nat} {e : PoolEntry}
    (hn : (m.map Prod.fst).Nodup) (h : mapFind m k = some e) :
    m.Perm ((k, e) :: mapErase k m) := by
  induction m with
  | nil => simp [mapFind] at h
  | cons kv rest ih =>
    obtain ⟨k1, e1⟩ := kv
    simp only [List.map_cons, List.nodup_cons] at hn
    by_cases hk : k1 = k
    · subst hk
      simp only [mapFind, ↓reduceIte, Option.some.injEq] at h
      subst h
      have : mapFind rest k1 = none := (mapFind_eq_none_iff rest k1).2 hn.1
      simp [mapErase, List.filter_cons]
      have h2 := mapErase_of_absent this
      simp only [mapErase] at h2
      rw [h2]
    · simp only [mapFind, hk, ↓reduceIte] at h
      have h2 := ih hn.2 h
      have : mapErase k ((k1, e1) :: rest) = (k1, e1) :: mapErase k rest := by
        simp [mapErase, List.filter_cons, hk]
      rw [this]
      exact (List.Perm.cons _ h2).trans (List.Perm.swap _ _ _)

theorem mapErase_mapAssign (m : List (Nat × PoolEntry)) (k : Nat) (v : PoolEntry) :
    mapErase k (mapAssign k v m) = mapErase k m := by
  induction m with
  | nil => simp [mapAssign, mapErase]
  | cons kv rest ih =>
    obtain ⟨k1, e1⟩ := kv
    simp only [mapErase] at ih
    by_cases hk : k1 = k
    · simp [mapAssign, mapErase, List.filter_cons, hk]
    · simp [mapAssign, mapErase, List.filter_cons, hk, ih]

/-! ## C strings in the buffer -/

theorem zero_not_mem_stringView (s : List Nat) : 0 ∉ stringView s := by
  induction s with
  | nil => simp [stringView]
  | cons c cs ih =>
    by_cases h : c = 0
    · simp [stringView, h]
    · simp only [stringView, h, ↓reduceIte, List.mem_cons, not_or]
      exact ⟨fun hh => h hh.symm, ih⟩

theorem stringView_of_not_mem {s : List Nat} (h : 0 ∉ s) : stringView s = s := by
  induction s with
  | nil => simp [stringView]
  | cons c cs ih =>
    simp only [List.mem_cons, not_or] at h
    have hc : ¬ c = 0 := fun hh => h.1 hh.symm
    simp [stringView, hc, ih h.2]

theorem stringView_idem (s : List Nat) : stringView (stringView s) = stringView s :=
  stringView_of_not_mem (zero_not_mem_stringView s)

theorem stringView_getElem? (s : List Nat) (j : Nat) (h : j < strlen s) :
    (stringView s)[j]? = some (s.getD j 0) := by
  induction s generalizing j with
  | nil => simp [strlen, stringView] at h
  | cons c cs ih =>
    by_cases hc : c = 0
    · simp [strlen, stringView, hc] at h
    · simp only [strlen, stringView, hc, ↓reduceIte, List.length_cons] at h
      cases j with
      | zero => simp [stringView, hc]
      | succ j =>
        have := ih j (by simp only [strlen]; omega)
        simpa [stringView, hc] using this

theorem scanCStr_eq_some_iff (l s : List Nat) :
    scanCStr l = some s ↔
      0 ∉ s ∧ (∀ j, j < s.length → l[j]? = s[j]?) ∧ l[s.length]? = some 0 := by
  induction l generalizing s with
  | nil => simp [scanCStr]
  | cons c cs ih =>
    by_cases hc : c = 0
    · subst hc
      simp only [scanCStr, ↓reduceIte, Option.some.injEq]
      constructor
      · intro h
        subst h
        simp
      · rintro ⟨h0, h1, h2⟩
        cases s with
        | nil => rfl
        | cons x xs =>
          have := h1 0 (by simp)
          simp only [List.getElem?_cons_zero, Option.some.injEq] at this
          subst this
          simp at h0
    · simp only [scanCStr, hc, ↓reduceIte, Option.map_eq_some']
      constructor
      · rintro ⟨r, hr, rfl⟩
        obtain ⟨h0, h1, h2⟩ := (ih r).1 hr
        refine ⟨?_, ?_, ?_⟩
        · simp only [List.mem_cons, not_or]
          exact ⟨fun hh => hc hh.symm, h0⟩
        · intro j hj
          cases j with
          | zero => simp
          | succ j =>
            simp only [List.length_cons, Nat.add_lt_add_iff_right] at hj
            simpa using h1 j hj
        · simpa using h2
      · rintro ⟨h0, h1, h2⟩
        cases s with
        | nil => simp at h2; exact absurd h2 hc
        | cons x xs =>
          have hx := h1 0 (by simp)
          simp only [List.getElem?_cons_zero, Option.some.injEq] at hx
          subst hx
          refine ⟨xs, (ih xs).2 ⟨?_, ?_, ?_⟩, rfl⟩
          · exact fun hh => h0 (List.mem_cons_of_mem _ hh)
          · intro j hj
            have := h1 (j + 1) (by simpa using hj)
            simpa using this
          · simpa using h2

theorem readCStr_eq_some_iff (mem : List Nat) (a : Nat) (s : List Nat) :
    readCStr mem a = some s ↔
      0 ∉ s ∧ (∀ j, j < s.length → mem[a + j]? = s[j]?) ∧ mem[a + s.length]? = some 0 := by
  simp only [readCStr, scanCStr_eq_some_iff, List.getElem?_drop]

theorem readCStr_frame {mem mem1 : List Nat} {a : Nat} {s : List Nat}
    (h : readCStr mem a = some s)
    (hf : ∀ j, a ≤ j → j ≤ a + s.length → mem1[j]? = mem[j]?) :
    readCStr mem1 a = some s := by
  rw [readCStr_eq_some_iff] at h ⊢
  obtain ⟨h0, h1, h2⟩ := h
  refine ⟨h0, ?_, ?_⟩
  · intro j hj
    rw [hf (a + j) (by omega) (by omega)]
    exact h1 j hj
  · rw [hf (a + s.length) (by omega) (by omega)]
    exact h2

theorem stringView_of_readCStr {mem : List Nat} {a : Nat} {s : List Nat}
    (h : readCStr mem a = some s) : stringView s = s :=
  stringView_of_not_mem ((readCStr_eq_some_iff mem a s).1 h).1

theorem writeLoop_spec (data : List Nat) (start : Nat) (fuel ii : Nat) (mem : List Nat)
    (h : start + ii + fuel ≤ mem.length) :
    ∃ mem1, Block.writeLoop data start fuel ii mem = some mem1 ∧ mem1.length = mem.length ∧
      ∀ j, mem1[j]? =
        if start + ii ≤ j ∧ j < start + ii + fuel then some (data.getD (j - start) 0)
        else mem[j]? := by
  induction fuel generalizing ii mem with
  | zero =>
    refine ⟨mem, rfl, rfl, ?_⟩
    intro j
    have : ¬ (start + ii ≤ j ∧ j < start + ii + 0) := by omega
    rw [if_neg this]
  | succ fuel ih =>
    have hlt : start + ii < mem.length := by omega
    simp only [Block.writeLoop, store, hlt, ↓reduceIte]
    obtain ⟨mem1, h1, h2, h3⟩ := ih (ii + 1) (mem.set (start + ii) (data.getD ii 0))
      (by simp only [List.length_set]; omega)
    refine ⟨mem1, h1, by simpa using h2, ?_⟩
    intro j
    rw [h3 j, List.getElem?_set]
    by_cases hj : start + ii = j
    · subst hj
      have e1 : ¬ (start + (ii + 1) ≤ start + ii ∧ start + ii < start + (ii + 1) + fuel) := by omega
      have e2 : (start + ii ≤ start + ii ∧ start + ii < start + ii + (fuel + 1)) := by omega
      simp [e1, e2, hlt]
    · by_cases hr : start + (ii + 1) ≤ j ∧ j < start + (ii + 1) + fuel
      · have e2 : (start + ii ≤ j ∧ j < start + ii + (fuel + 1)) := by omega
        simp [hr, e2]
      · have e2 : ¬ (start + ii ≤ j ∧ j < start + ii + (fuel + 1)) := by omega
        simp [hr, e2, hj]

theorem write_spec (b : Block) (mem data : List Nat) (start : Nat)
    (hb : b.m_addressStart = some start) (h : start + strlen data + 1 ≤ mem.length) :
    ∃ mem1, b.write mem data = some (b, mem1) ∧ mem1.length = mem.length ∧
      (∀ j, (j < start ∨ start + strlen data < j) → mem1[j]? = mem[j]?) ∧
      readCStr mem1 start = some (stringView data) := by
  obtain ⟨m1, h1, h2, h3⟩ := writeLoop_spec data start (strlen data) 0 mem (by omega)
  have hlt : start + strlen data < m1.length := by omega
  refine ⟨m1.set (start + strlen data) 0, ?_, ?_, ?_, ?_⟩
  · simp [Block.write, hb, h1, store, hlt]
  · simpa using h2
  · intro j hj
    rw [List.getElem?_set, h3 j]
    have e1 : ¬ (start + strlen data = j) := by omega
    have e2 : ¬ (start + 0 ≤ j ∧ j < start + 0 + strlen data) := by omega
    rw [if_neg e1, if_neg e2]
  · rw [readCStr_eq_some_iff]
    refine ⟨zero_not_mem_stringView data, ?_, ?_⟩
    · intro j hj
      rw [List.getElem?_set, h3 (start + j)]
      have hj' : j < strlen data := hj
      have e1 : ¬ (start + strlen data = start + j) := by omega
      have e2 : (start + 0 ≤ start + j ∧ start + j < start + 0 + strlen data) := by omega
      rw [if_neg e1, if_pos e2, stringView_getElem? data j hj']
      simp
    · have : (stringView data).length = strlen data := rfl
      rw [this, List.getElem?_set]
      simp [hlt]

/-! ## Construction -/

theorem constructLoop_spec (C N : Nat) (hmax : N ≤ INT_MAX) (fuel ii : Nat) (p : Pool)
    (hN : p.m_blocks.length = N) (hfuel : ii + fuel = N) (hmem : N * C ≤ p.m_pool.length) :
    ∃ p1, Pool.constructLoop C fuel ii (ii * C) p = some p1 ∧
      p1.m_allocatedBlocks = p.m_allocatedBlocks ∧ p1.m_pool = p.m_pool ∧
      p1.m_freeBlocks = p.m_freeBlocks ++ (List.range' ii fuel).map some ∧
      p1.m_blocks.length = N ∧
      ∀ j, p1.m_blocks[j]? =
        if ii ≤ j then (p.m_blocks[j]?).map (fun b => b.setStartAddress (some (j * C)))
        else p.m_blocks[j]? := by
  induction fuel generalizing ii p with
  | zero =>
    have h1 : ¬ ii < p.m_blocks.length := by omega
    refine ⟨p, by simp [Pool.constructLoop, h1], rfl, rfl, by simp, hN, ?_⟩
    intro j
    by_cases hj : ii ≤ j
    · have : p.m_blocks.length ≤ j := by omega
      simp [hj, List.getElem?_eq_none this]
    · simp [hj]
  | succ fuel ih =>
    have h1 : ii < p.m_blocks.length := by omega
    have h2 : ii + 1 ≤ INT_MAX := by omega
    have h3 : ii * C + C = (ii + 1) * C := by ring
    have h4 : (ii + 1) * C ≤ p.m_pool.length :=
      Nat.le_trans (Nat.mul_le_mul_right C (by omega)) hmem
    simp only [Pool.constructLoop, h1, h2, ↓reduceIte, h3, h4]
    obtain ⟨p1, e1, e2, e3, e4, e5, e6⟩ := ih (ii + 1)
      { p with
        m_blocks := p.m_blocks.modify (fun b => b.setStartAddress (some (ii * C))) ii,
        m_freeBlocks := p.m_freeBlocks ++ [some ii] }
      (by simpa using hN) (by omega) hmem
    refine ⟨p1, e1, e2, e3, ?_, e5, ?_⟩
    · rw [e4, List.range'_succ]
      simp
    · intro j
      rw [e6 j]
      simp only [List.getElem?_modify]
      by_cases hj : ii = j
      · subst hj
        have : ¬ (ii + 1 ≤ ii) := by omega
        simp [this]
      · by_cases hj2 : ii + 1 ≤ j
        · have : ii ≤ j := by omega
          cases hb : p.m_blocks[j]? <;> simp [hj2, this, hj, hb]
        · have : ¬ ii ≤ j := by omega
          cases hb : p.m_blocks[j]? <;> simp [hj2, this, hj, hb]

theorem construct_spec (P : Params) (garbage : Nat → Nat) (h : P.TSize ≤ INT_MAX)
    (hb : P.PHYSICAL_SIZE * P.TSize < SIZE_MOD) :
    ∃ p, Pool.construct P garbage = some p ∧ p.m_allocatedBlocks = [] ∧
      p.m_pool = (List.range (P.PHYSICAL_SIZE * P.TSize)).map garbage ∧
      p.m_freeBlocks = (List.range P.TSize).map some ∧
      p.m_blocks.length = P.TSize ∧
      ∀ j, j < P.TSize → p.m_blocks[j]? =
        some { m_size := P.PHYSICAL_SIZE, m_dataSize := 0,
               m_addressStart := some (j * P.PHYSICAL_SIZE) } := by
  obtain ⟨p1, e1, e2, e3, e4, e5, e6⟩ := constructLoop_spec (1 * P.PHYSICAL_SIZE) P.TSize h
    P.TSize 0
    { m_allocatedBlocks := [], m_freeBlocks := [],
      m_pool := (List.range (P.PHYSICAL_SIZE * P.TSize)).map garbage,
      m_blocks := List.replicate P.TSize (Block.default P.PHYSICAL_SIZE) }
    (by simp) (by simp) (by simp [Nat.mul_comm])
  refine ⟨p1, ?_, e2, e3, ?_, e5, ?_⟩
  · simpa [Pool.construct, Nat.mod_eq_of_lt hb] using e1
  · rw [e4]
    simp [List.range_eq_range']
  · intro j hj
    rw [e6 j]
    simp [hj, Block.default, Block.setStartAddress]

theorem constructLoop_overflow (C N : Nat) (hmax : INT_MAX < N) (fuel ii next : Nat) (p : Pool)
    (hN : p.m_blocks.length = N) (hfuel : ii + fuel = N) (hii : ii ≤ INT_MAX) :
    Pool.constructLoop C fuel ii next p = none := by
  induction fuel generalizing ii next p with
  | zero => omega
  | succ fuel ih =>
    have h1 : ii < p.m_blocks.length := by omega
    simp only [Pool.constructLoop, h1, ↓reduceIte]
    by_cases h3 : next + C ≤ p.m_pool.length
    · by_cases h2 : ii + 1 ≤ INT_MAX
      · simp only [h2, h3, ↓reduceIte]
        exact ih (ii + 1) _ _ (by simpa using hN) (by omega) h2
      · simp [h2]
    · simp [h3]

theorem construct_tsize {P : Params} {garbage : Nat → Nat} {p : Pool}
    (h : Pool.construct P garbage = some p) : P.TSize ≤ INT_MAX := by
  by_contra hc
  have := constructLoop_overflow (1 * P.PHYSICAL_SIZE) P.TSize (by omega) P.TSize 0 0
    { m_allocatedBlocks := [], m_freeBlocks := [],
      m_pool := (List.range ((P.PHYSICAL_SIZE * P.TSize) % SIZE_MOD)).map garbage,
      m_blocks := List.replicate P.TSize (Block.default P.PHYSICAL_SIZE) }
    (by simp) (by simp) (by simp [INT_MAX])
  simp only [Pool.construct] at h
  rw [this] at h
  cases h

theorem constructLoop_outside (C N : Nat) (fuel ii : Nat) (p : Pool)
    (hN : p.m_blocks.length = N) (hfuel : ii + fuel = N) (hii : ii < N)
    (hmem : p.m_pool.length < N * C) :
    Pool.constructLoop C fuel ii (ii * C) p = none := by
  induction fuel generalizing ii p with
  | zero => omega
  | succ fuel ih =>
    have h1 : ii < p.m_blocks.length := by omega
    have h3 : ii * C + C = (ii + 1) * C := by ring
    simp only [Pool.constructLoop, h1, ↓reduceIte, h3]
    by_cases h4 : (ii + 1) * C ≤ p.m_pool.length
    · by_cases h2 : ii + 1 ≤ INT_MAX
      · simp only [h2, h4, ↓reduceIte]
        have hlt : ii + 1 < N := by
          by_contra hc
          have : N ≤ ii + 1 := by omega
          have := Nat.mul_le_mul_right C this
          omega
        exact ih (ii + 1) _ (by simpa using hN) (by omega) hlt hmem
      · simp [h2]
    · simp [h4]

theorem construct_bytes {P : Params} {garbage : Nat → Nat} {p : Pool}
    (h : Pool.construct P garbage = some p) : P.PHYSICAL_SIZE * P.TSize < SIZE_MOD := by
  by_contra hc
  have hpos : 0 < P.TSize := by
    rcases Nat.eq_zero_or_pos P.TSize with h0 | h0
    · rw [h0] at hc
      simp [SIZE_MOD] at hc
    · exact h0
  have hlt : (P.PHYSICAL_SIZE * P.TSize) % SIZE_MOD < P.TSize * (1 * P.PHYSICAL_SIZE) := by
    have h1 : (P.PHYSICAL_SIZE * P.TSize) % SIZE_MOD < SIZE_MOD :=
      Nat.mod_lt _ (by simp [SIZE_MOD])
    have h2 : P.TSize * (1 * P.PHYSICAL_SIZE) = P.PHYSICAL_SIZE * P.TSize := by ring
    omega
  have := constructLoop_outside (1 * P.PHYSICAL_SIZE) P.TSize P.TSize 0
    { m_allocatedBlocks := [], m_freeBlocks := [],
      m_pool := (List.range ((P.PHYSICAL_SIZE * P.TSize) % SIZE_MOD)).map garbage,
      m_blocks := List.replicate P.TSize (Block.default P.PHYSICAL_SIZE) }
    (by simp) (by simp) hpos (by simpa using hlt)
  simp only [Pool.construct] at h
  rw [Nat.zero_mul] at this
  rw [this] at h
  cases h

theorem inv_construct {P : Params} {garbage : Nat → Nat} {p : Pool}
    (h : Pool.construct P garbage = some p) : Inv P p := by
  have ht := construct_tsize h
  obtain ⟨p1, e1, e2, e3, e4, e5, e6⟩ := construct_spec P garbage ht (construct_bytes h)
  rw [h] at e1
  cases e1
  refine ⟨ht, by simp [e3], e5, ?_, by simp [e2], by simp [e2], by simp [e2, e4], by simp [e2]⟩
  intro i b hb
  have hi : i < P.TSize := by
    rw [← e5]
    exact (List.getElem?_eq_some_iff.1 hb).1
  rw [e6 i hi] at hb
  cases hb
  rfl

/-! ## Consequences of the invariant -/

theorem Inv.slots_nodup {P : Params} {p : Pool} (h : Inv P p) :
    (p.m_freeBlocks ++ p.m_allocatedBlocks.map (fun kv => kv.2.block)).Nodup :=
  (List.Perm.nodup_iff h.slots).2
    (List.Nodup.map (fun _ _ hab => Option.some.inj hab) (List.nodup_range _))

theorem Inv.slot_valid {P : Params} {p : Pool} (h : Inv P p) {x : Option Nat}
    (hx : x ∈ p.m_freeBlocks ++ p.m_allocatedBlocks.map (fun kv => kv.2.block)) :
    ∃ i, x = some i ∧ i < P.TSize := by
  have := (List.Perm.mem_iff h.slots).1 hx
  simp only [List.mem_map, List.mem_range] at this
  obtain ⟨i, hi, rfl⟩ := this
  exact ⟨i, rfl, hi⟩

theorem Inv.free_valid {P : Params} {p : Pool} (h : Inv P p) {x : Option Nat}
    (hx : x ∈ p.m_freeBlocks) : ∃ i, x = some i ∧ i < P.TSize :=
  h.slot_valid (List.mem_append_left _ hx)

theorem Inv.entry_valid {P : Params} {p : Pool} (h : Inv P p) {kv : Nat × PoolEntry}
    (hx : kv ∈ p.m_allocatedBlocks) : ∃ i, kv.2.block = some i ∧ i < P.TSize :=
  h.slot_valid (List.mem_append_right _ (List.mem_map.2 ⟨kv, hx, rfl⟩))

theorem Inv.block_at {P : Params} {p : Pool} (h : Inv P p) {i : Nat} (hi : i < P.TSize) :
    ∃ b, p.m_blocks[i]? = some b ∧ b.m_addressStart = some (i * P.PHYSICAL_SIZE) := by
  have hlt : i < p.m_blocks.length := by rw [h.blocks_len]; exact hi
  refine ⟨p.m_blocks[i], List.getElem?_eq_getElem hlt, ?_⟩
  exact h.blocks_addr i _ (List.getElem?_eq_getElem hlt)

theorem Inv.hasString_eq {P : Params} {p : Pool} (h : Inv P p) (c : List Nat) :
    Pool.hasString P p c = (mapFind p.m_allocatedBlocks (Pool.hashKey P c)).isSome := by
  simp only [Pool.hasString]
  cases hf : mapFind p.m_allocatedBlocks (Pool.hashKey P c) with
  | none => rfl
  | some e =>
    have := h.occ_pos _ (mem_of_mapFind hf)
    simp only [Option.isSome_some, decide_eq_true_eq]
    exact this

theorem Inv.countFor_eq {P : Params} {p : Pool} (h : Inv P p) (c : List Nat) :
    Pool.countFor P p c =
      match mapFind p.m_allocatedBlocks (Pool.hashKey P c) with
      | some e => e.occurrences
      | none => 0 := by
  simp only [Pool.countFor, h.hasString_eq]
  cases hf : mapFind p.m_allocatedBlocks (Pool.hashKey P c) <;> simp

theorem slot_bound {C N i n : Nat} (hi : i < N) (hn : n + 1 ≤ C) : i * C + n + 1 ≤ C * N := by
  have : (i + 1) * C ≤ N * C := Nat.mul_le_mul_right C hi
  have e1 : (i + 1) * C = i * C + C := by ring
  have e2 : N * C = C * N := by ring
  omega

theorem slot_disjoint {C i j n t : Nat} (hij : i ≠ j) (hn : n + 1 ≤ C)
    (h1 : j * C ≤ t) (h2 : t < j * C + C) : t < i * C ∨ i * C + n < t := by
  rcases Nat.lt_or_gt_of_ne hij with h | h
  · right
    have : (i + 1) * C ≤ j * C := Nat.mul_le_mul_right C h
    have e1 : (i + 1) * C = i * C + C := by ring
    omega
  · left
    have : (j + 1) * C ≤ i * C := Nat.mul_le_mul_right C h
    have e1 : (j + 1) * C = j * C + C := by ring
    omega

/-! ## `tryAllocate` case by case -/

theorem tryAllocate_overflow (P : Params) (p : Pool) (c : List Nat)
    (h : ¬ strlen c + 1 ≤ P.PHYSICAL_SIZE) : Pool.tryAllocate P p c = .returned none p := by
  simp [Pool.tryAllocate, h]

theorem tryAllocate_present {P : Params} {p : Pool} (hinv : Inv P p) {c : List Nat}
    {e : PoolEntry} (hfit : strlen c + 1 ≤ P.PHYSICAL_SIZE)
    (hf : mapFind p.m_allocatedBlocks (Pool.hashKey P c) = some e) :
    Pool.tryAllocate P p c = .returned e.block
      { p with
        m_allocatedBlocks :=
          mapAssign (Pool.hashKey P c) ⟨e.block, e.occurrences + 1⟩ p.m_allocatedBlocks } := by
  have hs : Pool.hasString P p c = true := by rw [hinv.hasString_eq, hf]; rfl
  simp [Pool.tryAllocate, hfit, hs, hf]

theorem tryAllocate_full {P : Params} {p : Pool} (hinv : Inv P p) {c : List Nat}
    (hfit : strlen c + 1 ≤ P.PHYSICAL_SIZE)
    (hf : mapFind p.m_allocatedBlocks (Pool.hashKey P c) = none)
    (hfree : p.m_freeBlocks = []) : Pool.tryAllocate P p c = .threw p := by
  have hs : Pool.hasString P p c = false := by rw [hinv.hasString_eq, hf]; rfl
  simp [Pool.tryAllocate, hfit, hs, hfree]

theorem tryAllocate_new {P : Params} {p : Pool} (hinv : Inv P p) {c : List Nat}
    (hfit : strlen c + 1 ≤ P.PHYSICAL_SIZE)
    (hf : mapFind p.m_allocatedBlocks (Pool.hashKey P c) = none)
    {rest : List (Option Nat)} {x : Option Nat} (hfree : p.m_freeBlocks = rest ++ [x]) :
    ∃ i mem1, x = some i ∧ i < P.TSize ∧
      Pool.tryAllocate P p c = .returned (some i)
        { m_allocatedBlocks := p.m_allocatedBlocks ++ [(Pool.hashKey P c, ⟨some i, 1⟩)],
          m_freeBlocks := rest, m_pool := mem1, m_blocks := p.m_blocks } ∧
      mem1.length = p.m_pool.length ∧
      (∀ j, (j < i * P.PHYSICAL_SIZE ∨ i * P.PHYSICAL_SIZE + strlen c < j) →
        mem1[j]? = p.m_pool[j]?) ∧
      readCStr mem1 (i * P.PHYSICAL_SIZE) = some (stringView c) := by
  have hs : Pool.hasString P p c = false := by rw [hinv.hasString_eq, hf]; rfl
  obtain ⟨i, rfl, hi⟩ := hinv.free_valid (x := x) (by rw [hfree]; simp)
  obtain ⟨b, hb, hba⟩ := hinv.block_at hi
  obtain ⟨mem1, hw, hlen, hframe, hread⟩ := write_spec b p.m_pool c (i * P.PHYSICAL_SIZE) hba
    (by rw [hinv.mem_len]; exact slot_bound hi hfit)
  refine ⟨i, mem1, rfl, hi, ?_, hlen, hframe, hread⟩
  have hset : p.m_blocks.set i b = p.m_blocks := by
    apply List.ext_getElem?
    intro j
    rw [List.getElem?_set]
    by_cases hj : i = j
    · subst hj
      have : i < p.m_blocks.length := by rw [hinv.blocks_len]; exact hi
      simp [this, hb]
    · simp [hj]
  simp [Pool.tryAllocate, hfit, hs, hfree, hb, hw, hset, mapAssign_of_absent _ hf]

/-! ## The invariant is kept -/

theorem inv_recount {P : Params} {p : Pool} (hinv : Inv P p) {k : Nat} {e : PoolEntry}
    (hf : mapFind p.m_allocatedBlocks k = some e) {n : Nat} (hn : 1 ≤ n) :
    Inv P { p with m_allocatedBlocks := mapAssign k ⟨e.block, n⟩ p.m_allocatedBlocks } := by
  refine ⟨hinv.tsize, hinv.mem_len, hinv.blocks_len, hinv.blocks_addr,
    nodup_mapAssign _ _ hinv.keys_nodup, ?_, ?_, ?_⟩
  · intro kv hkv
    rcases mem_mapAssign hinv.keys_nodup hkv with h | h
    · subst h; exact hn
    · exact hinv.occ_pos kv h.1
  · show (p.m_freeBlocks ++ (mapAssign k ⟨e.block, n⟩ p.m_allocatedBlocks).map
      (fun kv => kv.2.block)).Perm _
    rw [map_block_mapAssign_of_present (⟨e.block, n⟩ : PoolEntry) hf rfl]
    exact hinv.slots
  · intro kv hkv i hi
    rcases mem_mapAssign hinv.keys_nodup hkv with h | h
    · subst h
      exact hinv.content (k, e) (mem_of_mapFind hf) i hi
    · exact hinv.content kv h.1 i hi

theorem inv_erase {P : Params} {p : Pool} (hinv : Inv P p) {k : Nat} {e : PoolEntry}
    (hf : mapFind p.m_allocatedBlocks k = some e) :
    Inv P { p with
      m_freeBlocks := p.m_freeBlocks ++ [e.block],
      m_allocatedBlocks := mapErase k p.m_allocatedBlocks } := by
  refine ⟨hinv.tsize, hinv.mem_len, hinv.blocks_len, hinv.blocks_addr,
    nodup_mapErase _ hinv.keys_nodup, ?_, ?_, ?_⟩
  · intro kv hkv
    exact hinv.occ_pos kv (mem_mapErase.1 hkv).1
  · show ((p.m_freeBlocks ++ [e.block]) ++ (mapErase k p.m_allocatedBlocks).map
      (fun kv => kv.2.block)).Perm _
    refine List.Perm.trans ?_ hinv.slots
    rw [List.append_assoc]
    refine List.Perm.append_left _ ?_
    have := (perm_mapErase hinv.keys_nodup hf).map (fun kv => kv.2.block)
    simpa using this.symm
  · intro kv hkv i hi
    exact hinv.content kv (mem_mapErase.1 hkv).1 i hi

theorem inv_new {P : Params} {p : Pool} (hinv : Inv P p) {c : List Nat}
    (hfit : strlen c + 1 ≤ P.PHYSICAL_SIZE)
    (hf : mapFind p.m_allocatedBlocks (Pool.hashKey P c) = none)
    {rest : List (Option Nat)} {i : Nat} (hfree : p.m_freeBlocks = rest ++ [some i])
    {mem1 : List Nat} (hlen : mem1.length = p.m_pool.length)
    (hframe : ∀ j, (j < i * P.PHYSICAL_SIZE ∨ i * P.PHYSICAL_SIZE + strlen c < j) →
      mem1[j]? = p.m_pool[j]?)
    (hread : readCStr mem1 (i * P.PHYSICAL_SIZE) = some (stringView c)) :
    Inv P { m_allocatedBlocks := p.m_allocatedBlocks ++ [(Pool.hashKey P c, ⟨some i, 1⟩)],
            m_freeBlocks := rest, m_pool := mem1, m_blocks := p.m_blocks } := by
  have hnd := hinv.slots_nodup
  rw [hfree] at hnd
  refine ⟨hinv.tsize, by rw [← hinv.mem_len]; exact hlen, hinv.blocks_len, hinv.blocks_addr,
    ?_, ?_, ?_, ?_⟩
  · have := nodup_mapAssign (Pool.hashKey P c) ⟨some i, 1⟩ hinv.keys_nodup
    rw [mapAssign_of_absent _ hf] at this
    exact this
  · intro kv hkv
    rcases List.mem_append.1 hkv with h | h
    · exact hinv.occ_pos kv h
    · simp only [List.mem_singleton] at h
      subst h
      exact Nat.le_refl 1
  · refine List.Perm.trans ?_ hinv.slots
    rw [hfree]
    simp only [List.map_append, List.map_cons, List.map_nil, List.append_assoc]
    refine List.Perm.append_left _ ?_
    exact List.perm_append_comm
  · intro kv hkv j hj
    rcases List.mem_append.1 hkv with h | h
    · obtain ⟨s, hs1, hs2, hs3⟩ := hinv.content kv h j hj
      refine ⟨s, readCStr_frame hs1 ?_, hs2, hs3⟩
      intro t ht1 ht2
      apply hframe
      have hij : i ≠ j := by
        rintro rfl
        have h1 : some i ∈ rest ++ [some i] := by simp
        have h2 : some i ∈ p.m_allocatedBlocks.map (fun kv => kv.2.block) :=
          List.mem_map.2 ⟨kv, h, hj⟩
        exact List.disjoint_of_nodup_append hnd h1 h2
      exact slot_disjoint hij hfit ht1 (by omega)
    · simp only [List.mem_singleton] at h
      subst h
      simp only [Option.some.injEq] at hj
      subst hj
      exact ⟨stringView c, hread, rfl, hfit⟩

theorem inv_tryAllocate {P : Params} {p : Pool} (hinv : Inv P p) (c : List Nat) :
    (∀ r p1, Pool.tryAllocate P p c = .returned r p1 → Inv P p1) ∧
    (∀ p1, Pool.tryAllocate P p c = .threw p1 → p1 = p) := by
  by_cases hfit : strlen c + 1 ≤ P.PHYSICAL_SIZE
  · cases hf : mapFind p.m_allocatedBlocks (Pool.hashKey P c) with
    | some e =>
      rw [tryAllocate_present hinv hfit hf]
      refine ⟨?_, (by intro p1 h; cases h)⟩
      intro r p1 h
      cases h
      exact inv_recount hinv hf (by omega)
    | none =>
      rcases List.eq_nil_or_concat p.m_freeBlocks with hfree | ⟨rest, x, hfree⟩
      · rw [tryAllocate_full hinv hfit hf hfree]
        exact ⟨(by intro r p1 h; cases h), (by intro p1 h; cases h; rfl)⟩
      · rw [List.concat_eq_append] at hfree
        obtain ⟨i, mem1, rfl, hi, ht, hlen, hframe, hread⟩ := tryAllocate_new hinv hfit hf hfree
        rw [ht]
        refine ⟨?_, (by intro p1 h; cases h)⟩
        intro r p1 h
        cases h
        exact inv_new hinv hfit hf hfree hlen hframe hread
  · rw [tryAllocate_overflow P p c hfit]
    exact ⟨(by intro r p1 h; cases h; exact hinv), (by intro p1 h; cases h)⟩

/-! ## `free`, `reset` and `findOrCreate` case by case -/

theorem free_absent {P : Params} {p : Pool} (hinv : Inv P p) {c : List Nat}
    (hf : mapFind p.m_allocatedBlocks (Pool.hashKey P c) = none) : Pool.free P p c = p := by
  have hs : Pool.hasString P p c = false := by rw [hinv.hasString_eq, hf]; rfl
  simp [Pool.free, hs]

theorem free_present {P : Params} {p : Pool} (hinv : Inv P p) {c : List Nat} {e : PoolEntry}
    (hf : mapFind p.m_allocatedBlocks (Pool.hashKey P c) = some e) :
    Pool.free P p c =
      if e.occurrences = 1 then
        { p with
          m_freeBlocks := p.m_freeBlocks ++ [e.block],
          m_allocatedBlocks := mapErase (Pool.hashKey P c) p.m_allocatedBlocks }
      else
        { p with
          m_allocatedBlocks :=
            mapAssign (Pool.hashKey P c) ⟨e.block, e.occurrences - 1⟩ p.m_allocatedBlocks } := by
  have hs : Pool.hasString P p c = true := by rw [hinv.hasString_eq, hf]; rfl
  have hpos := hinv.occ_pos _ (mem_of_mapFind hf)
  simp only at hpos
  have h0 : ¬ e.occurrences = 0 := by omega
  by_cases h1 : e.occurrences = 1
  · simp [Pool.free, hs, hf, h1, mapErase_mapAssign]
  · have h2 : ¬ e.occurrences - 1 = 0 := by omega
    simp [Pool.free, hs, hf, h0, h1, h2]

theorem inv_free {P : Params} {p : Pool} (hinv : Inv P p) (c : List Nat) :
    Inv P (Pool.free P p c) := by
  cases hf : mapFind p.m_allocatedBlocks (Pool.hashKey P c) with
  | none => rw [free_absent hinv hf]; exact hinv
  | some e =>
    rw [free_present hinv hf]
    have hpos := hinv.occ_pos _ (mem_of_mapFind hf)
    simp only at hpos
    by_cases h1 : e.occurrences = 1
    · rw [if_pos h1]; exact inv_erase hinv hf
    · rw [if_neg h1]; exact inv_recount hinv hf (by omega)

theorem resetLoop_spec (es : List (Nat × PoolEntry)) (p : Pool)
    (h : ∀ kv ∈ es, ∃ i, kv.2.block = some i ∧ i < p.m_blocks.length) :
    ∃ p1, Pool.resetLoop es p = some p1 ∧ p1.m_allocatedBlocks = p.m_allocatedBlocks ∧
      p1.m_pool = p.m_pool ∧
      p1.m_freeBlocks = p.m_freeBlocks ++ es.map (fun kv => kv.2.block) ∧
      p1.m_blocks.length = p.m_blocks.length ∧
      ∀ (j : Nat) (b1 : Block), p1.m_blocks[j]? = some b1 →
        ∃ b : Block, p.m_blocks[j]? = some b ∧ b1.m_addressStart = b.m_addressStart ∧
          b1.m_size = b.m_size := by
  induction es generalizing p with
  | nil => exact ⟨p, rfl, rfl, rfl, by simp, rfl, fun j b1 hb => ⟨b1, hb, rfl, rfl⟩⟩
  | cons kv rest ih =>
    obtain ⟨i, hi, hlt⟩ := h kv (List.mem_cons_self _ _)
    have hb : p.m_blocks[i]? = some p.m_blocks[i] := List.getElem?_eq_getElem hlt
    obtain ⟨p1, e1, e2, e3, e4, e5, e6⟩ := ih
      { p with
        m_blocks := p.m_blocks.set i (p.m_blocks[i]).clean,
        m_freeBlocks := p.m_freeBlocks ++ [some i] }
      (by
        intro kv1 hkv1
        obtain ⟨j, hj, hjlt⟩ := h kv1 (List.mem_cons_of_mem _ hkv1)
        exact ⟨j, hj, by simpa using hjlt⟩)
    refine ⟨p1, ?_, e2, e3, ?_, by simpa using e5, ?_⟩
    · simp only [Pool.resetLoop, Pool.resetStep, hi, hb]
      exact e1
    · rw [e4]
      simp [hi]
    · intro j b1 hb1
      obtain ⟨b, hb2, hb3, hb4⟩ := e6 j b1 hb1
      simp only [List.getElem?_set] at hb2
      by_cases hj : i = j
      · subst hj
        simp only [↓reduceIte, hlt, Option.some.injEq] at hb2
        subst hb2
        exact ⟨p.m_blocks[i], hb, hb3, hb4⟩
      · simp only [hj, ↓reduceIte] at hb2
        exact ⟨b, hb2, hb3, hb4⟩

theorem reset_spec {P : Params} {p : Pool} (hinv : Inv P p) :
    ∃ p1, Pool.reset p = some p1 ∧ p1.m_allocatedBlocks = [] ∧ p1.m_pool = p.m_pool ∧
      p1.m_freeBlocks = p.m_freeBlocks ++ p.m_allocatedBlocks.map (fun kv => kv.2.block) ∧
      Inv P p1 := by
  obtain ⟨p1, e1, e2, e3, e4, e5, e6⟩ := resetLoop_spec p.m_allocatedBlocks p (by
    intro kv hkv
    obtain ⟨i, hi, hlt⟩ := hinv.entry_valid hkv
    exact ⟨i, hi, by rw [hinv.blocks_len]; exact hlt⟩)
  refine ⟨{ p1 with m_allocatedBlocks := [] }, by simp [Pool.reset, e1], rfl, e3, e4, ?_⟩
  refine ⟨hinv.tsize, by rw [← hinv.mem_len]; exact congrArg List.length e3,
    by rw [← hinv.blocks_len]; exact e5, ?_, by simp, by simp, ?_, by simp⟩
  · intro j b1 hb1
    obtain ⟨b, hb2, hb3, _⟩ := e6 j b1 hb1
    rw [hb3]
    exact hinv.blocks_addr j b hb2
  · show (p1.m_freeBlocks ++ List.map (fun kv : Nat × PoolEntry => kv.2.block) []).Perm _
    rw [e4]
    simpa using hinv.slots

theorem findOrCreate_overflow (P : Params) (p : Pool) (c : List Nat)
    (h : ¬ strlen c + 1 ≤ P.PHYSICAL_SIZE) :
    Pool.findOrCreate P p c = .returned ⟨none, .noop⟩ p := by
  simp [Pool.findOrCreate, tryAllocate_overflow P p c h]

theorem findOrCreate_full {P : Params} {p : Pool} (hinv : Inv P p) {c : List Nat}
    (hfit : strlen c + 1 ≤ P.PHYSICAL_SIZE)
    (hf : mapFind p.m_allocatedBlocks (Pool.hashKey P c) = none)
    (hfree : p.m_freeBlocks = []) : Pool.findOrCreate P p c = .threw p := by
  simp [Pool.findOrCreate, tryAllocate_full hinv hfit hf hfree]

theorem findOrCreate_present {P : Params} {p : Pool} (hinv : Inv P p) {c : List Nat}
    {e : PoolEntry} (hfit : strlen c + 1 ≤ P.PHYSICAL_SIZE)
    (hf : mapFind p.m_allocatedBlocks (Pool.hashKey P c) = some e) :
    ∃ i, e.block = some i ∧ i < P.TSize ∧
      Pool.findOrCreate P p c =
        .returned ⟨some (i * P.PHYSICAL_SIZE), .freeData (some (i * P.PHYSICAL_SIZE))⟩
          { p with
            m_allocatedBlocks :=
              mapAssign (Pool.hashKey P c) ⟨e.block, e.occurrences + 1⟩ p.m_allocatedBlocks } := by
  obtain ⟨i, hi, hlt⟩ := hinv.entry_valid (mem_of_mapFind hf)
  simp only at hi
  obtain ⟨b, hb, hba⟩ := hinv.block_at hlt
  refine ⟨i, hi, hlt, ?_⟩
  simp [Pool.findOrCreate, tryAllocate_present hinv hfit hf, hi, hb, Block.data, hba]

theorem findOrCreate_new {P : Params} {p : Pool} (hinv : Inv P p) {c : List Nat}
    (hfit : strlen c + 1 ≤ P.PHYSICAL_SIZE)
    (hf : mapFind p.m_allocatedBlocks (Pool.hashKey P c) = none)
    {rest : List (Option Nat)} {x : Option Nat} (hfree : p.m_freeBlocks = rest ++ [x]) :
    ∃ i mem1, x = some i ∧ i < P.TSize ∧
      Pool.findOrCreate P p c =
        .returned ⟨some (i * P.PHYSICAL_SIZE), .freeData (some (i * P.PHYSICAL_SIZE))⟩
          { m_allocatedBlocks := p.m_allocatedBlocks ++ [(Pool.hashKey P c, ⟨some i, 1⟩)],
            m_freeBlocks := rest, m_pool := mem1, m_blocks := p.m_blocks } ∧
      mem1.length = p.m_pool.length ∧
      (∀ j, (j < i * P.PHYSICAL_SIZE ∨ i * P.PHYSICAL_SIZE + strlen c < j) →
        mem1[j]? = p.m_pool[j]?) ∧
      readCStr mem1 (i * P.PHYSICAL_SIZE) = some (stringView c) := by
  obtain ⟨i, mem1, rfl, hi, ht, hlen, hframe, hread⟩ := tryAllocate_new hinv hfit hf hfree
  obtain ⟨b, hb, hba⟩ := hinv.block_at hi
  refine ⟨i, mem1, rfl, hi, ?_, hlen, hframe, hread⟩
  simp [Pool.findOrCreate, ht, hb, Block.data, hba]

theorem inv_findOrCreate {P : Params} {p : Pool} (hinv : Inv P p) (c : List Nat) :
    (∀ h p1, Pool.findOrCreate P p c = .returned h p1 → Inv P p1) ∧
    (∀ p1, Pool.findOrCreate P p c = .threw p1 → p1 = p) := by
  obtain ⟨h1, h2⟩ := inv_tryAllocate hinv c
  simp only [Pool.findOrCreate]
  cases ht : Pool.tryAllocate P p c with
  | undefined => exact ⟨(by intro h p1 hh; cases hh), (by intro p1 hh; cases hh)⟩
  | threw p2 =>
    refine ⟨(by intro h p1 hh; cases hh), ?_⟩
    intro p1 hh
    cases hh
    exact h2 _ ht
  | returned r p2 =>
    have hi := h1 r p2 ht
    cases r with
    | none =>
      refine ⟨?_, (by intro p1 hh; cases hh)⟩
      intro h p1 hh
      cases hh
      exact hi
    | some i =>
      simp only
      cases hb : p2.m_blocks[i]? with
      | none => exact ⟨(by intro h p1 hh; cases hh), (by intro p1 hh; cases hh)⟩
      | some b =>
        refine ⟨?_, (by intro p1 hh; cases hh)⟩
        intro h p1 hh
        cases hh
        exact hi

theorem inv_release {P : Params} {p : Pool} (hinv : Inv P p) {h : PoolString} {p1 : Pool}
    (hr : Pool.release P p h = some p1) : Inv P p1 := by
  simp only [Pool.release] at hr
  cases hc : h.m_cleanup with
  | noop => simp only [hc, Option.some.injEq] at hr; subst hr; exact hinv
  | freeData d =>
    cases d with
    | none => simp [hc] at hr
    | some a =>
      simp only [hc] at hr
      cases hs : readCStr p.m_pool a with
      | none => simp [hs] at hr
      | some s =>
        simp only [hs, Option.some.injEq] at hr
        subst hr
        exact inv_free hinv s

theorem inv_of_reachable {P : Params} {resetOk : Sys → Prop} {s : Sys}
    (h : Reachable P resetOk s) : Inv P s.pool := by
  induction h with
  | init garbage p hp => exact inv_construct hp
  | intern s c s1 _ hs ih =>
    simp only [Sys.intern] at hs
    obtain ⟨h1, h2⟩ := inv_findOrCreate ih c
    cases hf : Pool.findOrCreate P s.pool c with
    | undefined => simp [hf] at hs
    | threw p1 =>
      simp only [hf, Option.some.injEq] at hs
      subst hs
      rw [h2 p1 hf]
      exact ih
    | returned h p1 =>
      simp only [hf, Option.some.injEq] at hs
      subst hs
      exact h1 h p1 hf
  | release s i s1 _ hs ih =>
    simp only [Sys.release] at hs
    cases hl : s.live[i]? with
    | none => simp [hl] at hs
    | some l =>
      simp only [hl] at hs
      cases hr : Pool.release P s.pool l.handle with
      | none => simp [hr] at hs
      | some p1 =>
        simp only [hr, Option.some.injEq] at hs
        subst hs
        exact inv_release ih hr
  | reset s s1 _ _ hs ih =>
    simp only [Sys.reset] at hs
    obtain ⟨p1, e1, _, _, _, e5⟩ := reset_spec ih
    simp only [e1, Option.some.injEq] at hs
    subst hs
    exact e5

/-! ## Sample states -/

theorem sampleFresh_reachable (resetOk : Sys → Prop) :
    Reachable sampleParams resetOk sampleFresh :=
  Reachable.init (fun _ => 0) _ (by decide)

theorem sampleFull_reachable (resetOk : Sys → Prop) :
    Reachable sampleParams resetOk sampleFull :=
  Reachable.intern sampleFresh [7] _ (sampleFresh_reachable resetOk) (by decide)

theorem lengthFull_reachable (resetOk : Sys → Prop) :
    Reachable lengthParams resetOk lengthFull :=
  Reachable.intern { pool := sampleFresh.pool, live := [] } [7] _
    (Reachable.init (fun _ => 0) _ (by decide)) (by decide)

theorem lengthLeftover_reachable (resetOk : Sys → Prop) :
    Reachable lengthParams resetOk lengthLeftover :=
  Reachable.release lengthShared 0 _
    (Reachable.intern lengthFull [8] _ (lengthFull_reachable resetOk) (by decide)) (by decide)

/-! ## Counting -/

theorem Inv.length_sum {P : Params} {p : Pool} (h : Inv P p) :
    p.m_freeBlocks.length + p.m_allocatedBlocks.length = P.TSize := by
  have := h.slots.length_eq
  simpa using this

theorem Inv.countReserved_eq {P : Params} {p : Pool} (h : Inv P p) :
    Pool.countReserved p = p.m_allocatedBlocks.length := by
  have h1 := h.length_sum
  have h2 := h.tsize
  have h3 := h.blocks_len
  simp only [Pool.countReserved, h3]
  have e : ((P.TSize : Int) - (p.m_freeBlocks.length : Int)) = (p.m_allocatedBlocks.length : Int) := by
    omega
  rw [e]
  have hlt : (p.m_allocatedBlocks.length : Int) < (SIZE_MOD : Int) := by
    have : p.m_allocatedBlocks.length < SIZE_MOD := by
      simp only [SIZE_MOD, INT_MAX] at *
      omega
    exact_mod_cast this
  rw [Int.emod_eq_of_lt (by omega) hlt]
  simp

theorem slotCount_range {N i : Nat} (hi : i < N) :
    slotCount i ((List.range N).map some) = 1 :=
  @List.count_eq_one_of_mem (Option Nat) _ (some i) _
    (List.Nodup.map (fun _ _ hab => Option.some.inj hab) (List.nodup_range _))
    (List.mem_map.2 ⟨i, List.mem_range.2 hi, rfl⟩)

theorem Inv.count_slot {P : Params} {p : Pool} (h : Inv P p) {i : Nat} (hi : i < P.TSize) :
    p.freeAt i + p.entriesAt i = 1 := by
  have h1 := h.slots.countP_eq (fun x => decide (x = some i))
  rw [List.countP_append] at h1
  have h2 := slotCount_range hi
  simp only [slotCount] at h2
  simp only [Pool.freeAt, Pool.entriesAt, slotCount]
  omega

/-! ## Slot bookkeeping (C4, C5, C9) -/

/-- C4 (slot partition invariant).  In every state reachable from construction
by any sequence of `findOrCreate`, handle release and `reset` (also `reset` with
live handles), the keys of the map are distinct, every pointer in the free list
or in a map entry points to one of the `TSize` slots, and every slot is either
exactly once in the free list and in no entry, or in no position of the free
list and in exactly one entry. -/
theorem slot_partition_invariant (P : Params) (s : Sys) (h : Reachable P anyTime s) :
    (s.pool.m_allocatedBlocks.map Prod.fst).Nodup ∧
    (∀ x, x ∈ s.pool.m_freeBlocks ∨ x ∈ s.pool.m_allocatedBlocks.map (fun kv => kv.2.block) →
      ∃ i, x = some i ∧ i < P.TSize) ∧
    ∀ i, i < P.TSize →
      (s.pool.freeAt i = 1 ∧ s.pool.entriesAt i = 0) ∨
      (s.pool.freeAt i = 0 ∧ s.pool.entriesAt i = 1) := by
  have hinv := inv_of_reachable h
  refine ⟨hinv.keys_nodup, ?_, ?_⟩
  · intro x hx
    exact hinv.slot_valid (List.mem_append.2 hx)
  · intro i hi
    have := hinv.count_slot hi
    omega

/-- Witness for C4: the sample pool after one `findOrCreate`. -/
theorem slot_partition_invariant_witness :
    Reachable sampleParams anyTime sampleFull ∧
    ((sampleFull.pool.m_allocatedBlocks.map Prod.fst).Nodup ∧
    (∀ x, x ∈ sampleFull.pool.m_freeBlocks ∨
        x ∈ sampleFull.pool.m_allocatedBlocks.map (fun kv => kv.2.block) →
      ∃ i, x = some i ∧ i < sampleParams.TSize) ∧
    ∀ i, i < sampleParams.TSize →
      (sampleFull.pool.freeAt i = 1 ∧ sampleFull.pool.entriesAt i = 0) ∨
      (sampleFull.pool.freeAt i = 0 ∧ sampleFull.pool.entriesAt i = 1)) :=
  ⟨sampleFull_reachable anyTime,
    slot_partition_invariant sampleParams sampleFull (sampleFull_reachable anyTime)⟩

/-- C5 (count invariant).  In every reachable state
`countAvailable() + countReserved()` is the slot count `TSize`, the free list
holds at most `TSize` pointers, so that the unsigned subtraction in
`countReserved()` does not wrap, and `countReserved()` is the number of entries
of the map, whose keys are distinct. -/
theorem count_invariant (P : Params) (s : Sys) (h : Reachable P anyTime s) :
    Pool.countAvailable s.pool + Pool.countReserved s.pool = P.TSize ∧
    s.pool.m_freeBlocks.length ≤ s.pool.m_blocks.length ∧
    s.pool.m_blocks.length = P.TSize ∧
    Pool.countReserved s.pool = s.pool.m_allocatedBlocks.length ∧
    (s.pool.m_allocatedBlocks.map Prod.fst).Nodup := by
  have hinv := inv_of_reachable h
  have h1 := hinv.length_sum
  have h2 := hinv.countReserved_eq
  have h3 := hinv.blocks_len
  refine ⟨?_, by omega, h3, h2, hinv.keys_nodup⟩
  rw [h2]
  exact h1

/-- Witness for C5: the sample pool after one `findOrCreate`. -/
theorem count_invariant_witness :
    Reachable sampleParams anyTime sampleFull ∧
    (Pool.countAvailable sampleFull.pool + Pool.countReserved sampleFull.pool
        = sampleParams.TSize ∧
    sampleFull.pool.m_freeBlocks.length ≤ sampleFull.pool.m_blocks.length ∧
    sampleFull.pool.m_blocks.length = sampleParams.TSize ∧
    Pool.countReserved sampleFull.pool = sampleFull.pool.m_allocatedBlocks.length ∧
    (sampleFull.pool.m_allocatedBlocks.map Prod.fst).Nodup) :=
  ⟨sampleFull_reachable anyTime,
    count_invariant sampleParams sampleFull (sampleFull_reachable anyTime)⟩

/-- C9 (reset).  From every reachable state, handles alive or not and whatever
the occurrence counts, `reset()` returns, and afterwards `countAvailable()` is
`TSize`, `countReserved()` is `0`, `countFor(c)` is `0` for every `c`, the map is
empty, and the free list has `TSize` elements among which every slot occurs
exactly once. -/
theorem reset_frees_everything (P : Params) (s : Sys) (h : Reachable P anyTime s) :
    ∃ p1, Pool.reset s.pool = some p1 ∧
      Pool.countAvailable p1 = P.TSize ∧ Pool.countReserved p1 = 0 ∧
      (∀ c, Pool.countFor P p1 c = 0) ∧ p1.m_allocatedBlocks = [] ∧
      p1.m_freeBlocks.length = P.TSize ∧ ∀ i, i < P.TSize → p1.freeAt i = 1 := by
  have hinv := inv_of_reachable h
  obtain ⟨p1, e1, e2, _, _, e5⟩ := reset_spec hinv
  have h1 := e5.length_sum
  have h2 := e5.countReserved_eq
  rw [e2] at h1 h2
  simp only [List.length_nil, Nat.add_zero] at h1 h2
  refine ⟨p1, e1, h1, h2, ?_, e2, h1, ?_⟩
  · intro c
    rw [e5.countFor_eq, e2]
    rfl
  · intro i hi
    have := e5.count_slot hi
    have h0 : p1.entriesAt i = 0 := by simp [Pool.entriesAt, slotCount, e2]
    omega

/-- Witness for C9: `reset` of the sample pool while a handle with occurrence
count one is alive. -/
theorem reset_frees_everything_witness :
    Reachable sampleParams anyTime sampleFull ∧
    ∃ p1, Pool.reset sampleFull.pool = some p1 ∧
      Pool.countAvailable p1 = sampleParams.TSize ∧ Pool.countReserved p1 = 0 ∧
      (∀ c, Pool.countFor sampleParams p1 c = 0) ∧ p1.m_allocatedBlocks = [] ∧
      p1.m_freeBlocks.length = sampleParams.TSize ∧
      ∀ i, i < sampleParams.TSize → p1.freeAt i = 1 :=
  ⟨sampleFull_reachable anyTime,
    reset_frees_everything sampleParams sampleFull (sampleFull_reachable anyTime)⟩

/-! ## The four ways `findOrCreate` ends -/

theorem findOrCreate_cases {P : Params} {p : Pool} (hinv : Inv P p) (c : List Nat) :
    (¬ strlen c + 1 ≤ P.PHYSICAL_SIZE ∧
      Pool.findOrCreate P p c = .returned ⟨none, .noop⟩ p) ∨
    (strlen c + 1 ≤ P.PHYSICAL_SIZE ∧
      ∃ e i, mapFind p.m_allocatedBlocks (Pool.hashKey P c) = some e ∧ e.block = some i ∧
        i < P.TSize ∧
        Pool.findOrCreate P p c =
          .returned ⟨some (i * P.PHYSICAL_SIZE), .freeData (some (i * P.PHYSICAL_SIZE))⟩
            { p with
              m_allocatedBlocks :=
                mapAssign (Pool.hashKey P c) ⟨e.block, e.occurrences + 1⟩
                  p.m_allocatedBlocks }) ∨
    (strlen c + 1 ≤ P.PHYSICAL_SIZE ∧
      mapFind p.m_allocatedBlocks (Pool.hashKey P c) = none ∧ p.m_freeBlocks = [] ∧
      Pool.findOrCreate P p c = .threw p) ∨
    (strlen c + 1 ≤ P.PHYSICAL_SIZE ∧
      mapFind p.m_allocatedBlocks (Pool.hashKey P c) = none ∧
      ∃ rest i mem1, p.m_freeBlocks = rest ++ [some i] ∧ i < P.TSize ∧
        Pool.findOrCreate P p c =
          .returned ⟨some (i * P.PHYSICAL_SIZE), .freeData (some (i * P.PHYSICAL_SIZE))⟩
            { m_allocatedBlocks := p.m_allocatedBlocks ++ [(Pool.hashKey P c, ⟨some i, 1⟩)],
              m_freeBlocks := rest, m_pool := mem1, m_blocks := p.m_blocks } ∧
        mem1.length = p.m_pool.length ∧
        (∀ j, (j < i * P.PHYSICAL_SIZE ∨ i * P.PHYSICAL_SIZE + strlen c < j) →
          mem1[j]? = p.m_pool[j]?) ∧
        readCStr mem1 (i * P.PHYSICAL_SIZE) = some (stringView c)) := by
  by_cases hfit : strlen c + 1 ≤ P.PHYSICAL_SIZE
  · right
    cases hf : mapFind p.m_allocatedBlocks (Pool.hashKey P c) with
    | some e =>
      left
      obtain ⟨i, hi, hlt, hfo⟩ := findOrCreate_present hinv hfit hf
      exact ⟨hfit, e, i, rfl, hi, hlt, hfo⟩
    | none =>
      right
      rcases List.eq_nil_or_concat p.m_freeBlocks with hfree | ⟨rest, x, hfree⟩
      · left
        exact ⟨hfit, rfl, hfree, findOrCreate_full hinv hfit hf hfree⟩
      · right
        rw [List.concat_eq_append] at hfree
        obtain ⟨i, mem1, rfl, hi, hfo, hlen, hframe, hread⟩ :=
          findOrCreate_new hinv hfit hf hfree
        exact ⟨hfit, rfl, rest, i, mem1, hfree, hi, hfo, hlen, hframe, hread⟩
  · left
    exact ⟨hfit, findOrCreate_overflow P p c hfit⟩

/-! ## Failure outcomes (C6, C7, C8) -/

/-- C6 (overflow).  In every reachable state and for every content,
`findOrCreate` returns a handle with null data exactly when
`strlen(content) + 1` exceeds the capacity.  In that case the call returns (it
does not throw, whatever the free list holds), the handle is the failure handle
with the empty cleanup, and the pool, hence the free list, the map,
`countAvailable()` and `countReserved()`, is the same after the call and after
the release of that handle. -/
theorem overflow_returns_failure_handle (P : Params) (s : Sys) (h : Reachable P anyTime s)
    (c : List Nat) :
    ((∃ hd p1, Pool.findOrCreate P s.pool c = .returned hd p1 ∧ hd.m_data = none) ↔
      P.PHYSICAL_SIZE < strlen c + 1) ∧
    (P.PHYSICAL_SIZE < strlen c + 1 →
      Pool.findOrCreate P s.pool c = .returned ⟨none, .noop⟩ s.pool ∧
      Pool.release P s.pool ⟨none, .noop⟩ = some s.pool) := by
  have hinv := inv_of_reachable h
  constructor
  · constructor
    · rintro ⟨hd, p1, hfo, hnull⟩
      rcases findOrCreate_cases hinv c with ⟨hfit, _⟩ | ⟨_, e, i, _, _, _, hc⟩ | ⟨_, _, _, hc⟩ |
        ⟨_, _, rest, i, mem1, _, _, hc, _⟩
      · omega
      · rw [hc] at hfo
        cases hfo
        cases hnull
      · rw [hc] at hfo
        cases hfo
      · rw [hc] at hfo
        cases hfo
        cases hnull
    · intro hbig
      exact ⟨_, _, findOrCreate_overflow P s.pool c (by omega), rfl⟩
  · intro hbig
    exact ⟨findOrCreate_overflow P s.pool c (by omega), rfl⟩

/-- Witness for C6: the sample pool, full, asked for a string of four
characters. -/
theorem overflow_returns_failure_handle_witness :
    Reachable sampleParams anyTime sampleFull ∧
    (((∃ hd p1, Pool.findOrCreate sampleParams sampleFull.pool [1, 2, 3, 4] = .returned hd p1 ∧
        hd.m_data = none) ↔
      sampleParams.PHYSICAL_SIZE < strlen [1, 2, 3, 4] + 1) ∧
    (sampleParams.PHYSICAL_SIZE < strlen [1, 2, 3, 4] + 1 →
      Pool.findOrCreate sampleParams sampleFull.pool [1, 2, 3, 4]
        = .returned ⟨none, .noop⟩ sampleFull.pool ∧
      Pool.release sampleParams sampleFull.pool ⟨none, .noop⟩ = some sampleFull.pool)) :=
  ⟨sampleFull_reachable anyTime,
    overflow_returns_failure_handle sampleParams sampleFull (sampleFull_reachable anyTime)
      [1, 2, 3, 4]⟩

/-- C8, as stated, fails.  The sample pool is full and its only entry has the
key of every string; `findOrCreate` of a four-character string, which does not
fit, returns the failure handle and the count under that key stays `1`. -/
theorem oversized_collision_not_counted :
    Reachable sampleParams anyTime sampleFull ∧
    sampleFull.pool.m_freeBlocks = [] ∧
    mapFind sampleFull.pool.m_allocatedBlocks (Pool.hashKey sampleParams [1, 2, 3, 4])
      = some ⟨some 0, 1⟩ ∧
    Pool.findOrCreate sampleParams sampleFull.pool [1, 2, 3, 4]
      = .returned ⟨none, .noop⟩ sampleFull.pool ∧
    ¬ ∃ hd p1, Pool.findOrCreate sampleParams sampleFull.pool [1, 2, 3, 4] = .returned hd p1 ∧
        Pool.countFor sampleParams p1 [1, 2, 3, 4]
          = Pool.countFor sampleParams sampleFull.pool [1, 2, 3, 4] + 1 := by
  refine ⟨sampleFull_reachable anyTime, by decide, by decide, by decide, ?_⟩
  rintro ⟨hd, p1, h1, h2⟩
  have h3 : Pool.findOrCreate sampleParams sampleFull.pool [1, 2, 3, 4]
      = .returned ⟨none, .noop⟩ sampleFull.pool := by decide
  rw [h3] at h1
  cases h1
  revert h2
  decide

/-- C8, amended.  In every reachable state `findOrCreate(content)` throws
`PoolOutOfMemory` exactly when `strlen(content) + 1` is within the capacity, the
map has no entry under the hash key of the content, and the free list is empty;
when it throws, the pool (free list, map, bytes of every slot) is the one before
the call.  With an empty free list and an entry under the key of the content
the call never throws, and when the content fits it returns a valid handle and
adds one to the count of that entry. -/
theorem outOfMemory_exactly_when_new_and_full (P : Params) (s : Sys)
    (h : Reachable P anyTime s) (c : List Nat) :
    ((∃ p1, Pool.findOrCreate P s.pool c = .threw p1) ↔
      strlen c + 1 ≤ P.PHYSICAL_SIZE ∧
      mapFind s.pool.m_allocatedBlocks (Pool.hashKey P c) = none ∧
      s.pool.m_freeBlocks = []) ∧
    (∀ p1, Pool.findOrCreate P s.pool c = .threw p1 → p1 = s.pool) ∧
    (∀ e, mapFind s.pool.m_allocatedBlocks (Pool.hashKey P c) = some e →
      s.pool.m_freeBlocks = [] →
      (∀ p1, Pool.findOrCreate P s.pool c ≠ .threw p1) ∧
      (strlen c + 1 ≤ P.PHYSICAL_SIZE →
        ∃ hd p1, Pool.findOrCreate P s.pool c = .returned hd p1 ∧ hd.m_data ≠ none ∧
          p1.m_freeBlocks = [] ∧ p1.m_pool = s.pool.m_pool ∧
          mapFind p1.m_allocatedBlocks (Pool.hashKey P c) = some ⟨e.block, e.occurrences + 1⟩ ∧
          (∀ k, k ≠ Pool.hashKey P c →
            mapFind p1.m_allocatedBlocks k = mapFind s.pool.m_allocatedBlocks k) ∧
          Pool.countFor P p1 c = Pool.countFor P s.pool c + 1)) := by
  have hinv := inv_of_reachable h
  have hcases := findOrCreate_cases hinv c
  refine ⟨⟨?_, ?_⟩, (inv_findOrCreate hinv c).2, ?_⟩
  · rintro ⟨p1, hthrew⟩
    rcases hcases with ⟨_, hc⟩ | ⟨_, e, i, _, _, _, hc⟩ | ⟨hfit, hf, hfree, _⟩ |
      ⟨_, _, rest, i, mem1, _, _, hc, _⟩
    · rw [hc] at hthrew; cases hthrew
    · rw [hc] at hthrew; cases hthrew
    · exact ⟨hfit, hf, hfree⟩
    · rw [hc] at hthrew; cases hthrew
  · rintro ⟨hfit, hf, hfree⟩
    exact ⟨s.pool, findOrCreate_full hinv hfit hf hfree⟩
  · intro e he hfree
    constructor
    · intro p1 hthrew
      rcases hcases with ⟨_, hc⟩ | ⟨_, e, i, _, _, _, hc⟩ | ⟨_, hf, _, _⟩ |
        ⟨_, _, rest, i, mem1, _, _, hc, _⟩
      · rw [hc] at hthrew; cases hthrew
      · rw [hc] at hthrew; cases hthrew
      · rw [hf] at he; cases he
      · rw [hc] at hthrew; cases hthrew
    · intro hfit
      obtain ⟨i, hi, hlt, hfo⟩ := findOrCreate_present hinv hfit he
      have hinv1 := (inv_findOrCreate hinv c).1 _ _ hfo
      refine ⟨_, _, hfo, by simp, hfree, rfl, ?_, ?_, ?_⟩
      · simp [mapFind_mapAssign]
      · intro k hk
        simp [mapFind_mapAssign, hk]
      · rw [hinv1.countFor_eq, hinv.countFor_eq, he]
        simp [mapFind_mapAssign]

/-- Witness for C8 as amended: the full sample pool and a content whose key has
an entry. -/
theorem outOfMemory_exactly_when_new_and_full_witness :
    Reachable sampleParams anyTime sampleFull ∧
    (((∃ p1, Pool.findOrCreate sampleParams sampleFull.pool [8] = .threw p1) ↔
      strlen [8] + 1 ≤ sampleParams.PHYSICAL_SIZE ∧
      mapFind sampleFull.pool.m_allocatedBlocks (Pool.hashKey sampleParams [8]) = none ∧
      sampleFull.pool.m_freeBlocks = []) ∧
    (∀ p1, Pool.findOrCreate sampleParams sampleFull.pool [8] = .threw p1 →
      p1 = sampleFull.pool) ∧
    (∀ e, mapFind sampleFull.pool.m_allocatedBlocks (Pool.hashKey sampleParams [8]) = some e →
      sampleFull.pool.m_freeBlocks = [] →
      (∀ p1, Pool.findOrCreate sampleParams sampleFull.pool [8] ≠ .threw p1) ∧
      (strlen [8] + 1 ≤ sampleParams.PHYSICAL_SIZE →
        ∃ hd p1, Pool.findOrCreate sampleParams sampleFull.pool [8] = .returned hd p1 ∧
          hd.m_data ≠ none ∧
          p1.m_freeBlocks = [] ∧ p1.m_pool = sampleFull.pool.m_pool ∧
          mapFind p1.m_allocatedBlocks (Pool.hashKey sampleParams [8])
            = some ⟨e.block, e.occurrences + 1⟩ ∧
          (∀ k, k ≠ Pool.hashKey sampleParams [8] →
            mapFind p1.m_allocatedBlocks k = mapFind sampleFull.pool.m_allocatedBlocks k) ∧
          Pool.countFor sampleParams p1 [8]
            = Pool.countFor sampleParams sampleFull.pool [8] + 1))) :=
  ⟨sampleFull_reachable anyTime,
    outOfMemory_exactly_when_new_and_full sampleParams sampleFull
      (sampleFull_reachable anyTime) [8]⟩

/-- C7, as stated, fails.  The pool of `lengthParams` is full and holds `[7]`;
the content `[8]` fits, differs from the string stored by every entry, and has
the hash key of `[7]`: `findOrCreate` returns a handle to the slot of `[7]` and
does not throw. -/
theorem unseen_content_with_colliding_key_not_thrown :
    Reachable lengthParams anyTime lengthFull ∧
    Pool.countAvailable lengthFull.pool = 0 ∧
    strlen [8] + 1 ≤ lengthParams.PHYSICAL_SIZE ∧
    (∀ kv ∈ lengthFull.pool.m_allocatedBlocks,
      Pool.stored lengthFull.pool kv.2 ≠ some (stringView [8])) ∧
    Pool.findOrCreate lengthParams lengthFull.pool [8] =
      .returned ⟨some 0, .freeData (some 0)⟩
        { lengthFull.pool with m_allocatedBlocks := [(1, ⟨some 0, 2⟩)] } ∧
    ¬ ∃ p1, Pool.findOrCreate lengthParams lengthFull.pool [8] = .threw p1 := by
  refine ⟨lengthFull_reachable anyTime, by decide, by decide, by decide, by decide, ?_⟩
  rintro ⟨p1, h1⟩
  have h3 : Pool.findOrCreate lengthParams lengthFull.pool [8] =
      .returned ⟨some 0, .freeData (some 0)⟩
        { lengthFull.pool with m_allocatedBlocks := [(1, ⟨some 0, 2⟩)] } := by decide
  rw [h3] at h1
  cases h1

theorem Inv.stored_of_entry {P : Params} {p : Pool} (hinv : Inv P p) {kv : Nat × PoolEntry}
    (hkv : kv ∈ p.m_allocatedBlocks) :
    ∃ u, Pool.stored p kv.2 = some u ∧ P.hash u = kv.1 := by
  obtain ⟨i, hi, hlt⟩ := hinv.entry_valid hkv
  obtain ⟨b, hb, hba⟩ := hinv.block_at hlt
  obtain ⟨u, hu1, hu2, _⟩ := hinv.content kv hkv i hi
  exact ⟨u, by simp [Pool.stored, hi, hb, Block.data, hba, hu1], hu2⟩

/-- C7, amended.  In every reachable state with no free slot, for every content
that fits within the capacity and whose hash key has no entry in the map,
`findOrCreate` throws `PoolOutOfMemory` and leaves the pool, so also
`countAvailable()` and `countReserved()`, as it was.  The key has no entry in
particular when the content differs from the string stored by every entry and
its key is not shared with a different stored string. -/
theorem exhaustion_throws (P : Params) (s : Sys) (h : Reachable P anyTime s) (c : List Nat)
    (hfull : Pool.countAvailable s.pool = 0) (hfit : strlen c + 1 ≤ P.PHYSICAL_SIZE)
    (hnew : mapFind s.pool.m_allocatedBlocks (Pool.hashKey P c) = none ∨
      ((∀ kv ∈ s.pool.m_allocatedBlocks, Pool.stored s.pool kv.2 ≠ some (stringView c)) ∧
       (∀ kv ∈ s.pool.m_allocatedBlocks, ∀ u, Pool.stored s.pool kv.2 = some u →
          P.hash u = Pool.hashKey P c → u = stringView c))) :
    ∃ p1, Pool.findOrCreate P s.pool c = .threw p1 ∧ p1 = s.pool ∧
      Pool.countAvailable p1 = Pool.countAvailable s.pool ∧
      Pool.countReserved p1 = Pool.countReserved s.pool := by
  have hinv := inv_of_reachable h
  have hfree : s.pool.m_freeBlocks = [] := List.length_eq_zero.1 hfull
  have hkey : mapFind s.pool.m_allocatedBlocks (Pool.hashKey P c) = none := by
    rcases hnew with h1 | ⟨h1, h2⟩
    · exact h1
    · cases hf : mapFind s.pool.m_allocatedBlocks (Pool.hashKey P c) with
      | none => rfl
      | some e =>
        exfalso
        have hmem := mem_of_mapFind hf
        obtain ⟨u, hu1, hu2⟩ := hinv.stored_of_entry hmem
        have := h2 _ hmem u hu1 hu2
        rw [this] at hu1
        exact h1 _ hmem hu1
  exact ⟨s.pool, findOrCreate_full hinv hfit hkey hfree, rfl, rfl, rfl⟩

/-- Witness for C7 as amended: the full pool of `lengthParams` and a string of
another length. -/
theorem exhaustion_throws_witness :
    (Reachable lengthParams anyTime lengthFull ∧
      Pool.countAvailable lengthFull.pool = 0 ∧
      strlen [8, 9] + 1 ≤ lengthParams.PHYSICAL_SIZE ∧
      mapFind lengthFull.pool.m_allocatedBlocks (Pool.hashKey lengthParams [8, 9]) = none) ∧
    ∃ p1, Pool.findOrCreate lengthParams lengthFull.pool [8, 9] = .threw p1 ∧
      p1 = lengthFull.pool ∧
      Pool.countAvailable p1 = Pool.countAvailable lengthFull.pool ∧
      Pool.countReserved p1 = Pool.countReserved lengthFull.pool :=
  ⟨⟨lengthFull_reachable anyTime, by decide, by decide, by decide⟩,
    exhaustion_throws lengthParams lengthFull (lengthFull_reachable anyTime) [8, 9]
      (by decide) (by decide) (Or.inl (by decide))⟩

/-! ## Interning a new string (C10) and interning it again (C1) -/

theorem strlen_of_not_mem {c : List Nat} (h : 0 ∉ c) : strlen c = c.length := by
  simp only [strlen, stringView_of_not_mem h]

/-- C10 (read-back round trip).  In every reachable state with a free slot, for
every content without a zero byte, with `length + 1` within the capacity, whose
hash key has no entry, `findOrCreate` returns a valid handle; the
zero-terminated string read at the data pointer of the handle is the content,
whatever the slot held before, and `countFor(content)` is `1` afterwards. -/
theorem read_back_round_trip (P : Params) (s : Sys) (h : Reachable P anyTime s) (c : List Nat)
    (hfree : 0 < Pool.countAvailable s.pool) (hnul : 0 ∉ c)
    (hfit : c.length + 1 ≤ P.PHYSICAL_SIZE)
    (hnew : mapFind s.pool.m_allocatedBlocks (Pool.hashKey P c) = none) :
    ∃ a p1, Pool.findOrCreate P s.pool c = .returned ⟨some a, .freeData (some a)⟩ p1 ∧
      readCStr p1.m_pool a = some c ∧ Pool.countFor P p1 c = 1 := by
  have hinv := inv_of_reachable h
  have hfit1 : strlen c + 1 ≤ P.PHYSICAL_SIZE := by rw [strlen_of_not_mem hnul]; exact hfit
  rcases List.eq_nil_or_concat s.pool.m_freeBlocks with he | ⟨rest, x, he⟩
  · simp [Pool.countAvailable, he] at hfree
  · rw [List.concat_eq_append] at he
    obtain ⟨i, mem1, rfl, hi, hfo, hlen, hframe, hread⟩ := findOrCreate_new hinv hfit1 hnew he
    have hinv1 := (inv_findOrCreate hinv c).1 _ _ hfo
    refine ⟨_, _, hfo, ?_, ?_⟩
    · rw [stringView_of_not_mem hnul] at hread
      exact hread
    · rw [hinv1.countFor_eq]
      have := mapFind_of_mem hinv1.keys_nodup
        (show (Pool.hashKey P c, (⟨some i, 1⟩ : PoolEntry)) ∈
          s.pool.m_allocatedBlocks ++ [(Pool.hashKey P c, ⟨some i, 1⟩)] by simp)
      simp only at this
      rw [this]

/-- Witness for C10: `[7]` interned into the fresh sample pool. -/
theorem read_back_round_trip_witness :
    (Reachable sampleParams anyTime sampleFresh ∧
      0 < Pool.countAvailable sampleFresh.pool ∧ 0 ∉ [7] ∧
      [7].length + 1 ≤ sampleParams.PHYSICAL_SIZE ∧
      mapFind sampleFresh.pool.m_allocatedBlocks (Pool.hashKey sampleParams [7]) = none) ∧
    ∃ a p1, Pool.findOrCreate sampleParams sampleFresh.pool [7]
        = .returned ⟨some a, .freeData (some a)⟩ p1 ∧
      readCStr p1.m_pool a = some [7] ∧ Pool.countFor sampleParams p1 [7] = 1 :=
  ⟨⟨sampleFresh_reachable anyTime, by decide, by decide, by decide, by decide⟩,
    read_back_round_trip sampleParams sampleFresh (sampleFresh_reachable anyTime) [7]
      (by decide) (by decide) (by decide) (by decide)⟩

theorem internTimes_present {P : Params} {c : List Nat}
    (hfit : strlen c + 1 ≤ P.PHYSICAL_SIZE) (i : Nat) (k : Nat) :
    ∀ (p : Pool) (n : Nat), Inv P p →
      mapFind p.m_allocatedBlocks (Pool.hashKey P c) = some ⟨some i, n⟩ →
      ∃ hs p1, internTimes P k p c = some (hs, p1) ∧ hs.length = k ∧
        (∀ hd ∈ hs, hd = ⟨some (i * P.PHYSICAL_SIZE), .freeData (some (i * P.PHYSICAL_SIZE))⟩) ∧
        Inv P p1 ∧
        mapFind p1.m_allocatedBlocks (Pool.hashKey P c) = some ⟨some i, n + k⟩ ∧
        p1.m_freeBlocks = p.m_freeBlocks := by
  induction k with
  | zero =>
    intro p n hinv hf
    exact ⟨[], p, rfl, rfl, by simp, hinv, hf, rfl⟩
  | succ k ih =>
    intro p n hinv hf
    obtain ⟨j, hj, _, hfo⟩ := findOrCreate_present hinv hfit hf
    simp only [Option.some.injEq] at hj
    subst hj
    have hinv1 := (inv_findOrCreate hinv c).1 _ _ hfo
    obtain ⟨hs, p2, e1, e2, e3, e4, e5, e6⟩ := ih _ (n + 1) hinv1
      (by simp [mapFind_mapAssign])
    refine ⟨(⟨some (i * P.PHYSICAL_SIZE), .freeData (some (i * P.PHYSICAL_SIZE))⟩ : PoolString)
      :: hs, p2, ?_, by simp [e2], ?_, e4, ?_, e6⟩
    · simp only [internTimes, hfo, e1]
    · intro hd hhd
      rcases List.mem_cons.1 hhd with h1 | h1
      · exact h1
      · exact e3 hd h1
    · rw [e5]
      congr 2
      omega

/-- C1 (deduplicating intern).  In every reachable state, for every content
with `strlen + 1` within the capacity, `countFor` zero and at least one free
slot, `k ≥ 1` successive `findOrCreate` calls all return: the `k` handles are
valid and carry the same data pointer, the start of one slot; afterwards
`countFor` is `k` and `countAvailable()` is lower by exactly one, whatever `k`
is, so only the first call takes a slot from the free list. -/
theorem dedup_intern (P : Params) (s : Sys) (h : Reachable P anyTime s) (c : List Nat)
    (hfit : strlen c + 1 ≤ P.PHYSICAL_SIZE) (hzero : Pool.countFor P s.pool c = 0)
    (hfree : 0 < Pool.countAvailable s.pool) (k : Nat) (hk : 1 ≤ k) :
    ∃ hs p1 i, internTimes P k s.pool c = some (hs, p1) ∧ hs.length = k ∧ i < P.TSize ∧
      (∀ hd ∈ hs, hd.m_data = some (i * P.PHYSICAL_SIZE) ∧
        hd.m_cleanup = .freeData (some (i * P.PHYSICAL_SIZE))) ∧
      Pool.countFor P p1 c = k ∧
      Pool.countAvailable p1 + 1 = Pool.countAvailable s.pool := by
  have hinv := inv_of_reachable h
  have hnew : mapFind s.pool.m_allocatedBlocks (Pool.hashKey P c) = none := by
    rw [hinv.countFor_eq] at hzero
    cases hf : mapFind s.pool.m_allocatedBlocks (Pool.hashKey P c) with
    | none => rfl
    | some e =>
      rw [hf] at hzero
      have := hinv.occ_pos _ (mem_of_mapFind hf)
      simp only at hzero this
      omega
  obtain ⟨k, rfl⟩ : ∃ k1, k = k1 + 1 := ⟨k - 1, by omega⟩
  rcases List.eq_nil_or_concat s.pool.m_freeBlocks with he | ⟨rest, x, he⟩
  · simp [Pool.countAvailable, he] at hfree
  · rw [List.concat_eq_append] at he
    obtain ⟨i, mem1, rfl, hi, hfo, _, _, _⟩ := findOrCreate_new hinv hfit hnew he
    have hinv1 := (inv_findOrCreate hinv c).1 _ _ hfo
    have hf1 := mapFind_of_mem hinv1.keys_nodup
      (show (Pool.hashKey P c, (⟨some i, 1⟩ : PoolEntry)) ∈
        s.pool.m_allocatedBlocks ++ [(Pool.hashKey P c, ⟨some i, 1⟩)] by simp)
    obtain ⟨hs, p2, e1, e2, e3, e4, e5, e6⟩ := internTimes_present hfit i k _ 1 hinv1 hf1
    refine ⟨(⟨some (i * P.PHYSICAL_SIZE), .freeData (some (i * P.PHYSICAL_SIZE))⟩ : PoolString)
      :: hs, p2, i, ?_, by simp [e2], hi, ?_, ?_, ?_⟩
    · simp only [internTimes, hfo, e1]
    · intro hd hhd
      rcases List.mem_cons.1 hhd with h1 | h1
      · subst h1
        exact ⟨rfl, rfl⟩
      · rw [e3 hd h1]
        exact ⟨rfl, rfl⟩
    · rw [e4.countFor_eq, e5]
      show 1 + k = k + 1
      omega
    · simp only [Pool.countAvailable, e6, he, List.length_append, List.length_singleton]

/-- Witness for C1: `[7]` interned twice into the fresh sample pool. -/
theorem dedup_intern_witness :
    (Reachable sampleParams anyTime sampleFresh ∧
      strlen [7] + 1 ≤ sampleParams.PHYSICAL_SIZE ∧
      Pool.countFor sampleParams sampleFresh.pool [7] = 0 ∧
      0 < Pool.countAvailable sampleFresh.pool ∧ 1 ≤ 2) ∧
    ∃ hs p1 i, internTimes sampleParams 2 sampleFresh.pool [7] = some (hs, p1) ∧
      hs.length = 2 ∧ i < sampleParams.TSize ∧
      (∀ hd ∈ hs, hd.m_data = some (i * sampleParams.PHYSICAL_SIZE) ∧
        hd.m_cleanup = .freeData (some (i * sampleParams.PHYSICAL_SIZE))) ∧
      Pool.countFor sampleParams p1 [7] = 2 ∧
      Pool.countAvailable p1 + 1 = Pool.countAvailable sampleFresh.pool :=
  ⟨⟨sampleFresh_reachable anyTime, by decide, by decide, by decide, by decide⟩,
    dedup_intern sampleParams sampleFresh (sampleFresh_reachable anyTime) [7]
      (by decide) (by decide) (by decide) 2 (by decide)⟩

/-! ## The map and the live handles agree -/

theorem countP_eraseIdx {α : Type} (q : α → Bool) (l : List α) (i : Nat) (x : α)
    (h : l[i]? = some x) : (l.eraseIdx i).countP q + (if q x then 1 else 0) = l.countP q := by
  induction l generalizing i with
  | nil => simp at h
  | cons a as ih =>
    cases i with
    | zero =>
      simp only [List.getElem?_cons_zero, Option.some.injEq] at h
      subst h
      simp [List.countP_cons]
    | succ i =>
      simp only [List.getElem?_cons_succ] at h
      have := ih i h
      simp only [List.eraseIdx_cons_succ, List.countP_cons]
      omega

theorem liveFor_snoc (P : Params) (p p1 : Pool) (live : List Live) (l : Live) (k : Nat) :
    Sys.liveFor P ⟨p1, live ++ [l]⟩ k =
      Sys.liveFor P ⟨p, live⟩ k +
        (if (l.handle.m_data.isSome && decide (Pool.hashKey P l.content = k)) = true then 1
         else 0) := by
  simp only [Sys.liveFor, List.countP_append, List.countP_cons, List.countP_nil, Nat.zero_add]

theorem liveFor_eraseIdx (P : Params) (p p1 : Pool) (live : List Live) (i : Nat) (l : Live)
    (h : live[i]? = some l) (k : Nat) :
    Sys.liveFor P ⟨p1, live.eraseIdx i⟩ k +
        (if (l.handle.m_data.isSome && decide (Pool.hashKey P l.content = k)) = true then 1
         else 0) =
      Sys.liveFor P ⟨p, live⟩ k :=
  countP_eraseIdx _ live i l h

theorem liveFor_eq_zero {P : Params} {s : Sys} (hh : HInv P s) {k : Nat}
    (hf : mapFind s.pool.m_allocatedBlocks k = none) : Sys.liveFor P s k = 0 := by
  simp only [Sys.liveFor, List.countP_eq_zero]
  intro l hl hq
  simp only [Bool.and_eq_true, decide_eq_true_eq] at hq
  rcases hh.handles l hl with ⟨h1, _⟩ | ⟨i, e, _, _, h3, _⟩
  · rw [h1] at hq
    simp at hq
  · rw [hq.2, hf] at h3
    cases h3

theorem hinv_intern {P : Params} {s s1 : Sys} {c : List Nat} (hinv : Inv P s.pool)
    (hh : HInv P s) (hs : Sys.intern P s c = some s1) : HInv P s1 := by
  simp only [Sys.intern] at hs
  rcases findOrCreate_cases hinv c with ⟨_, hc⟩ | ⟨_, e, i, hf, hb, _, hc⟩ | ⟨_, _, _, hc⟩ |
    ⟨_, hf, rest, i, mem1, _, _, hc, _⟩
  · -- the content does not fit
    simp only [hc, Option.some.injEq] at hs
    subst hs
    constructor
    · intro l hl
      rcases List.mem_append.1 hl with h1 | h1
      · exact hh.handles l h1
      · simp only [List.mem_singleton] at h1
        subst h1
        exact Or.inl ⟨rfl, rfl⟩
    · intro kv hkv
      rw [liveFor_snoc P s.pool]
      simpa using hh.counts kv hkv
  · -- an entry under the key exists
    simp only [hc, Option.some.injEq] at hs
    subst hs
    constructor
    · intro l hl
      rcases List.mem_append.1 hl with h1 | h1
      · rcases hh.handles l h1 with h2 | ⟨i2, e2, h2, h3, h4, h5⟩
        · exact Or.inl h2
        · right
          by_cases hk : Pool.hashKey P l.content = Pool.hashKey P c
          · rw [hk, hf] at h4
            cases h4
            exact ⟨i2, ⟨e.block, e.occurrences + 1⟩, h2, h3, by simp [mapFind_mapAssign, hk], h5⟩
          · exact ⟨i2, e2, h2, h3, by simp [mapFind_mapAssign, hk, h4], h5⟩
      · simp only [List.mem_singleton] at h1
        subst h1
        right
        exact ⟨i, ⟨e.block, e.occurrences + 1⟩, rfl, rfl, by simp [mapFind_mapAssign], hb⟩
    · intro kv hkv
      rw [liveFor_snoc P s.pool]
      rcases mem_mapAssign hinv.keys_nodup hkv with h1 | ⟨h1, h2⟩
      · subst h1
        have := hh.counts _ (mem_of_mapFind hf)
        simp only at this
        simp [this]
      · have := hh.counts kv h1
        have h3 : ¬ Pool.hashKey P c = kv.1 := fun hx => h2 hx.symm
        simp [this, h3]
  · -- the call throws
    simp only [hc, Option.some.injEq] at hs
    subst hs
    exact hh
  · -- a new entry is made
    simp only [hc, Option.some.injEq] at hs
    subst hs
    have hassign := mapAssign_of_absent (⟨some i, 1⟩ : PoolEntry) hf
    constructor
    · intro l hl
      rcases List.mem_append.1 hl with h1 | h1
      · rcases hh.handles l h1 with h2 | ⟨i2, e2, h2, h3, h4, h5⟩
        · exact Or.inl h2
        · right
          have hk : ¬ Pool.hashKey P l.content = Pool.hashKey P c := by
            intro hx
            rw [hx, hf] at h4
            cases h4
          refine ⟨i2, e2, h2, h3, ?_, h5⟩
          show mapFind (s.pool.m_allocatedBlocks ++ [(Pool.hashKey P c, ⟨some i, 1⟩)]) _ = _
          rw [← hassign, mapFind_mapAssign, if_neg hk]
          exact h4
      · simp only [List.mem_singleton] at h1
        subst h1
        right
        refine ⟨i, ⟨some i, 1⟩, rfl, rfl, ?_, rfl⟩
        show mapFind (s.pool.m_allocatedBlocks ++ [(Pool.hashKey P c, ⟨some i, 1⟩)]) _ = _
        rw [← hassign, mapFind_mapAssign, if_pos rfl]
    · intro kv hkv
      rw [liveFor_snoc P s.pool]
      rcases List.mem_append.1 hkv with h1 | h1
      · have := hh.counts kv h1
        have h3 : ¬ Pool.hashKey P c = kv.1 := by
          intro hx
          have := (mapFind_eq_none_iff _ _).1 hf
          exact this (List.mem_map.2 ⟨kv, h1, hx.symm⟩)
        simp [this, h3]
      · simp only [List.mem_singleton] at h1
        subst h1
        have := liveFor_eq_zero hh hf
        simp [this]

theorem release_valid {P : Params} {p : Pool} (hinv : Inv P p) {l : Live} {i : Nat}
    {e : PoolEntry} (hc : l.handle.m_cleanup = .freeData (some (i * P.PHYSICAL_SIZE)))
    (hf : mapFind p.m_allocatedBlocks (Pool.hashKey P l.content) = some e)
    (hb : e.block = some i) :
    ∃ t, readCStr p.m_pool (i * P.PHYSICAL_SIZE) = some t ∧
      Pool.hashKey P t = Pool.hashKey P l.content ∧
      t.length + 1 ≤ P.PHYSICAL_SIZE ∧
      Pool.release P p l.handle = some (Pool.free P p t) ∧
      Pool.free P p t =
        if e.occurrences = 1 then
          { p with
            m_freeBlocks := p.m_freeBlocks ++ [e.block],
            m_allocatedBlocks := mapErase (Pool.hashKey P l.content) p.m_allocatedBlocks }
        else
          { p with
            m_allocatedBlocks :=
              mapAssign (Pool.hashKey P l.content) ⟨e.block, e.occurrences - 1⟩
                p.m_allocatedBlocks } := by
  obtain ⟨t, ht1, ht2, ht3⟩ := hinv.content _ (mem_of_mapFind hf) i hb
  simp only at ht2
  have hk : Pool.hashKey P t = Pool.hashKey P l.content := by
    simp only [Pool.hashKey, stringView_of_readCStr ht1]
    exact ht2
  refine ⟨t, ht1, hk, ht3, by simp [Pool.release, hc, ht1], ?_⟩
  have := free_present hinv (c := t) (e := e) (by rw [hk]; exact hf)
  rw [hk] at this
  exact this

theorem hinv_release {P : Params} {s s1 : Sys} {i : Nat} (hinv : Inv P s.pool)
    (hh : HInv P s) (hs : Sys.release P s i = some s1) : HInv P s1 := by
  simp only [Sys.release] at hs
  cases hl : s.live[i]? with
  | none => simp [hl] at hs
  | some l =>
    simp only [hl] at hs
    have hmem : l ∈ s.live := List.getElem?_mem hl
    rcases hh.handles l hmem with ⟨h1, h2⟩ | ⟨i2, e, h2, h3, h4, h5⟩
    · -- a failure handle
      simp only [Pool.release, h2, Option.some.injEq] at hs
      subst hs
      constructor
      · intro l2 hl2
        exact hh.handles l2 (List.mem_of_mem_eraseIdx hl2)
      · intro kv hkv
        have := liveFor_eraseIdx P s.pool s.pool s.live i l hl kv.1
        rw [h1] at this
        simp only [Option.isSome_none, Bool.false_and, Bool.false_eq_true, ↓reduceIte,
          Nat.add_zero] at this
        rw [this]
        exact hh.counts kv hkv
    · -- a valid handle
      obtain ⟨t, _, _, _, hrel, hfree⟩ := release_valid hinv h3 h4 h5
      rw [hrel] at hs
      simp only [Option.some.injEq] at hs
      subst hs
      have hcount := hh.counts _ (mem_of_mapFind h4)
      simp only at hcount
      have hvalid : l.handle.m_data.isSome = true := by rw [h2]; rfl
      have hlive : ∀ k, Sys.liveFor P ⟨Pool.free P s.pool t, s.live.eraseIdx i⟩ k +
          (if Pool.hashKey P l.content = k then 1 else 0) = Sys.liveFor P s k := by
        intro k
        have := liveFor_eraseIdx P s.pool (Pool.free P s.pool t) s.live i l hl k
        simpa [hvalid] using this
      by_cases hone : e.occurrences = 1
      · rw [if_pos hone] at hfree
        have hzero : Sys.liveFor P ⟨Pool.free P s.pool t, s.live.eraseIdx i⟩
            (Pool.hashKey P l.content) = 0 := by
          have := hlive (Pool.hashKey P l.content)
          simp only [↓reduceIte] at this
          omega
        constructor
        · intro l2 hl2
          rcases hh.handles l2 (List.mem_of_mem_eraseIdx hl2) with h6 | ⟨i3, e3, h6, h7, h8, h9⟩
          · exact Or.inl h6
          · right
            have hk : ¬ Pool.hashKey P l2.content = Pool.hashKey P l.content := by
              intro hx
              simp only [Sys.liveFor, List.countP_eq_zero] at hzero
              apply hzero l2 hl2
              simp [h6, hx]
            refine ⟨i3, e3, h6, h7, ?_, h9⟩
            rw [hfree]
            simp only [mapFind_mapErase, if_neg hk]
            exact h8
        · intro kv hkv
          rw [hfree] at hkv
          obtain ⟨hkv1, hkv2⟩ := mem_mapErase.1 hkv
          have := hlive kv.1
          have h3 : ¬ Pool.hashKey P l.content = kv.1 := fun hx => hkv2 hx.symm
          simp only [h3, ↓reduceIte, Nat.add_zero] at this
          rw [this]
          exact hh.counts kv hkv1
      · rw [if_neg hone] at hfree
        constructor
        · intro l2 hl2
          rcases hh.handles l2 (List.mem_of_mem_eraseIdx hl2) with h6 | ⟨i3, e3, h6, h7, h8, h9⟩
          · exact Or.inl h6
          · right
            rw [hfree]
            by_cases hk : Pool.hashKey P l2.content = Pool.hashKey P l.content
            · rw [hk, h4] at h8
              cases h8
              exact ⟨i3, ⟨e.block, e.occurrences - 1⟩, h6, h7,
                by simp [mapFind_mapAssign, hk], h9⟩
            · exact ⟨i3, e3, h6, h7, by simp [mapFind_mapAssign, hk, h8], h9⟩
        · intro kv hkv
          rw [hfree] at hkv
          rcases mem_mapAssign hinv.keys_nodup hkv with h1 | ⟨h1, h2⟩
          · subst h1
            have := hlive (Pool.hashKey P l.content)
            simp only [↓reduceIte] at this
            show e.occurrences - 1 =
              Sys.liveFor P ⟨Pool.free P s.pool t, s.live.eraseIdx i⟩ (Pool.hashKey P l.content)
            omega
          · have := hlive kv.1
            have h3 : ¬ Pool.hashKey P l.content = kv.1 := fun hx => h2 hx.symm
            simp only [h3, ↓reduceIte, Nat.add_zero] at this
            rw [this]
            exact hh.counts kv h1

theorem hinv_reset {P : Params} {s s1 : Sys} (hinv : Inv P s.pool) (hh : HInv P s)
    (hno : noLiveHandle s) (hs : Sys.reset s = some s1) : HInv P s1 := by
  simp only [Sys.reset] at hs
  obtain ⟨p1, e1, e2, _, _, _⟩ := reset_spec hinv
  simp only [e1, Option.some.injEq] at hs
  subst hs
  constructor
  · intro l hl
    rcases hh.handles l hl with h1 | ⟨i, e, h1, _⟩
    · exact Or.inl h1
    · rw [hno l hl] at h1
      cases h1
  · intro kv hkv
    rw [e2] at hkv
    cases hkv

theorem hinv_of_reachable {P : Params} {s : Sys} (h : Reachable P noLiveHandle s) :
    HInv P s := by
  induction h with
  | init garbage p hp =>
    have := (construct_spec P garbage (construct_tsize hp) (construct_bytes hp))
    obtain ⟨p1, e1, e2, _⟩ := this
    rw [hp] at e1
    cases e1
    constructor
    · intro l hl
      cases hl
    · intro kv hkv
      rw [e2] at hkv
      cases hkv
  | intern s c s1 hr hs ih => exact hinv_intern (inv_of_reachable hr) ih hs
  | release s i s1 hr hs ih => exact hinv_release (inv_of_reachable hr) ih hs
  | reset s s1 hr hok hs ih => exact hinv_reset (inv_of_reachable hr) ih hok hs

theorem reachable_mono {P : Params} {ok ok1 : Sys → Prop} (hok : ∀ s, ok s → ok1 s) {s : Sys}
    (h : Reachable P ok s) : Reachable P ok1 s := by
  induction h with
  | init garbage p hp => exact Reachable.init garbage p hp
  | intern s c s1 _ hs ih => exact Reachable.intern s c s1 ih hs
  | release s i s1 _ hs ih => exact Reachable.release s i s1 ih hs
  | reset s s1 _ hr hs ih => exact Reachable.reset s s1 ih (hok s hr) hs

/-! ## Reference counts (C2, C3) -/

theorem live_handle_of_entry {P : Params} {s : Sys} (hinv : Inv P s.pool) (hh : HInv P s)
    {k : Nat} {e : PoolEntry} (hf : mapFind s.pool.m_allocatedBlocks k = some e) :
    ∃ l ∈ s.live, ∃ i, l.handle.m_data = some (i * P.PHYSICAL_SIZE) ∧
      Pool.hashKey P l.content = k ∧ e.block = some i := by
  have h1 := hh.counts _ (mem_of_mapFind hf)
  have h2 := hinv.occ_pos _ (mem_of_mapFind hf)
  simp only at h1 h2
  have h3 : 0 < Sys.liveFor P s k := by omega
  simp only [Sys.liveFor, List.countP_pos_iff, Bool.and_eq_true, decide_eq_true_eq] at h3
  obtain ⟨l, hl, hv, hk⟩ := h3
  rcases hh.handles l hl with ⟨h4, _⟩ | ⟨i, e2, h4, _, h6, h7⟩
  · rw [h4] at hv
    cases hv
  · rw [hk, hf] at h6
    cases h6
    exact ⟨l, hl, i, h4, hk, h7⟩

/-- C3 (reference-count exactness).  In every state reachable from a fresh pool
by `findOrCreate` calls, releases of live handles (a released handle leaves the
live list, so none is released twice) and `reset` calls made when no valid handle
is alive: the map has an entry under a key exactly when some live valid handle
was obtained for a content with that key; the occurrence count of the entry is
the number of those handles; every entry has count at least one, so the
decrement in `free` never wraps; and releasing any live handle is defined. -/
theorem reference_count_exact (P : Params) (s : Sys) (h : Reachable P noLiveHandle s) :
    (s.pool.m_allocatedBlocks.map Prod.fst).Nodup ∧
    (∀ k, (∃ e, mapFind s.pool.m_allocatedBlocks k = some e) ↔
      ∃ l ∈ s.live, l.handle.m_data ≠ none ∧ Pool.hashKey P l.content = k) ∧
    (∀ k e, mapFind s.pool.m_allocatedBlocks k = some e →
      e.occurrences = Sys.liveFor P s k ∧ 1 ≤ e.occurrences) ∧
    (∀ kv ∈ s.pool.m_allocatedBlocks, 1 ≤ kv.2.occurrences) ∧
    (∀ l ∈ s.live, ∃ p1, Pool.release P s.pool l.handle = some p1) := by
  have hinv := inv_of_reachable h
  have hh := hinv_of_reachable h
  refine ⟨hinv.keys_nodup, ?_, ?_, hinv.occ_pos, ?_⟩
  · intro k
    constructor
    · rintro ⟨e, he⟩
      obtain ⟨l, hl, i, h1, h2, _⟩ := live_handle_of_entry hinv hh he
      exact ⟨l, hl, by rw [h1]; simp, h2⟩
    · rintro ⟨l, hl, hv, hk⟩
      rcases hh.handles l hl with ⟨h4, _⟩ | ⟨i, e2, _, _, h6, _⟩
      · exact absurd h4 hv
      · exact ⟨e2, by rw [← hk]; exact h6⟩
  · intro k e he
    exact ⟨hh.counts _ (mem_of_mapFind he), hinv.occ_pos _ (mem_of_mapFind he)⟩
  · intro l hl
    rcases hh.handles l hl with ⟨_, h5⟩ | ⟨i, e2, _, h5, h6, h7⟩
    · exact ⟨s.pool, by simp [Pool.release, h5]⟩
    · obtain ⟨t, _, _, _, hrel, _⟩ := release_valid hinv h5 h6 h7
      exact ⟨_, hrel⟩

/-- Witness for C3: the sample pool with one live handle. -/
theorem reference_count_exact_witness :
    Reachable sampleParams noLiveHandle sampleFull ∧
    ((sampleFull.pool.m_allocatedBlocks.map Prod.fst).Nodup ∧
    (∀ k, (∃ e, mapFind sampleFull.pool.m_allocatedBlocks k = some e) ↔
      ∃ l ∈ sampleFull.live, l.handle.m_data ≠ none ∧ Pool.hashKey sampleParams l.content = k) ∧
    (∀ k e, mapFind sampleFull.pool.m_allocatedBlocks k = some e →
      e.occurrences = Sys.liveFor sampleParams sampleFull k ∧ 1 ≤ e.occurrences) ∧
    (∀ kv ∈ sampleFull.pool.m_allocatedBlocks, 1 ≤ kv.2.occurrences) ∧
    (∀ l ∈ sampleFull.live, ∃ p1, Pool.release sampleParams sampleFull.pool l.handle = some p1)) :=
  ⟨sampleFull_reachable noLiveHandle,
    reference_count_exact sampleParams sampleFull (sampleFull_reachable noLiveHandle)⟩

/-- C2, as stated, fails in its closing sentence.  With the length as hash, the
calls `findOrCreate([7])`, `findOrCreate([8])` and the release of the handle
obtained for `[7]` lead, without `reset`, to a state in which every handle of
the content `[7]` has been released, and yet `countFor([7])` is `1` and the slot
of `[7]` is in an entry and not in the free list: the handle obtained for
`[8]`, which shares the key, keeps the entry alive. -/
theorem released_content_kept_by_colliding_handle :
    Sys.run lengthParams { pool := sampleFresh.pool, live := [] }
      [.intern [7], .intern [8], .release 0] = some lengthLeftover ∧
    Reachable lengthParams never lengthLeftover ∧
    (∀ l ∈ lengthLeftover.live, l.content ≠ [7]) ∧
    Pool.countFor lengthParams lengthLeftover.pool [7] = 1 ∧
    lengthLeftover.pool.freeAt 0 = 0 ∧ lengthLeftover.pool.entriesAt 0 = 1 ∧
    ¬ (Pool.countFor lengthParams lengthLeftover.pool [7] = 0 ∧
        lengthLeftover.pool.freeAt 0 = 1) :=
  ⟨by decide, lengthLeftover_reachable never, by decide, by decide, by decide, by decide,
    by decide⟩

/-- C2, amended (release postcondition).  In every state reached without
`reset`, take a live valid handle; let `t` be the string read at its data
pointer and `k` the occurrence count of `t`.  Then `k ≥ 1`, the entry under the
key of `t` holds the slot the handle points to, and the release is defined and
leaves the bytes and every entry under another key as they were.  If `k > 1` the
count becomes `k - 1` and the free list is the same.  If `k = 1` the entry is
removed, `countFor` becomes `0`, the slot of the entry is appended to the free
list, `countAvailable()` rises by one, and the slot is free and in no entry.
Moreover, in every such state a slot that no live handle points to is free;
`countFor(c)` is `0` whenever no live handle reads a string with the key of `c`;
and once every valid handle obtained for a content with the key of `c` has been
released, `countFor(c)` is `0` and every slot whose bytes read a string with
that key is free and in no entry. -/
theorem release_postcondition (P : Params) (s : Sys) (h : Reachable P never s) :
    (∀ l ∈ s.live, ∀ a, l.handle.m_data = some a →
      ∃ t e i p1, readCStr s.pool.m_pool a = some t ∧
        mapFind s.pool.m_allocatedBlocks (Pool.hashKey P t) = some e ∧
        e.block = some i ∧ i < P.TSize ∧ a = i * P.PHYSICAL_SIZE ∧
        Pool.countFor P s.pool t = e.occurrences ∧ 1 ≤ e.occurrences ∧
        Pool.release P s.pool l.handle = some p1 ∧
        p1.m_pool = s.pool.m_pool ∧
        (∀ k, k ≠ Pool.hashKey P t →
          mapFind p1.m_allocatedBlocks k = mapFind s.pool.m_allocatedBlocks k) ∧
        (1 < e.occurrences →
          Pool.countFor P p1 t = e.occurrences - 1 ∧
          mapFind p1.m_allocatedBlocks (Pool.hashKey P t) = some ⟨e.block, e.occurrences - 1⟩ ∧
          p1.m_freeBlocks = s.pool.m_freeBlocks) ∧
        (e.occurrences = 1 →
          mapFind p1.m_allocatedBlocks (Pool.hashKey P t) = none ∧
          Pool.countFor P p1 t = 0 ∧
          p1.m_freeBlocks = s.pool.m_freeBlocks ++ [some i] ∧
          Pool.countAvailable p1 = Pool.countAvailable s.pool + 1 ∧
          p1.freeAt i = 1 ∧ p1.entriesAt i = 0)) ∧
    (∀ i, i < P.TSize → (∀ l ∈ s.live, l.handle.m_data ≠ some (i * P.PHYSICAL_SIZE)) →
      s.pool.freeAt i = 1 ∧ s.pool.entriesAt i = 0) ∧
    (∀ c, (∀ l ∈ s.live, ∀ a u, l.handle.m_data = some a → readCStr s.pool.m_pool a = some u →
        Pool.hashKey P u ≠ Pool.hashKey P c) →
      Pool.countFor P s.pool c = 0) ∧
    (∀ c, (∀ l ∈ s.live, l.handle.m_data ≠ none →
        Pool.hashKey P l.content ≠ Pool.hashKey P c) →
      Pool.countFor P s.pool c = 0 ∧
      ∀ i u, i < P.TSize → readCStr s.pool.m_pool (i * P.PHYSICAL_SIZE) = some u →
        Pool.hashKey P u = Pool.hashKey P c →
        s.pool.freeAt i = 1 ∧ s.pool.entriesAt i = 0) := by
  have hr : Reachable P noLiveHandle s := reachable_mono (fun _ hx => False.elim hx) h
  have hinv := inv_of_reachable hr
  have hh := hinv_of_reachable hr
  refine ⟨?_, ?_, ?_, ?_⟩
  · intro l hl a ha
    rcases hh.handles l hl with ⟨h4, _⟩ | ⟨i, e, h4, h5, h6, h7⟩
    · rw [h4] at ha
      cases ha
    · rw [h4] at ha
      cases ha
      obtain ⟨t, ht1, ht2, _, hrel, hfree⟩ := release_valid hinv h5 h6 h7
      have hpos := hinv.occ_pos _ (mem_of_mapFind h6)
      simp only at hpos
      obtain ⟨i2, hi2, hlt⟩ := hinv.entry_valid (mem_of_mapFind h6)
      simp only [h7, Option.some.injEq] at hi2
      subst hi2
      have hinv1 : Inv P (Pool.free P s.pool t) := inv_free hinv t
      refine ⟨t, e, i, _, ht1, by rw [ht2]; exact h6, h7, hlt, rfl, ?_, hpos, hrel, ?_, ?_, ?_, ?_⟩
      · rw [hinv.countFor_eq, ht2, h6]
      · rw [hfree]
        split <;> rfl
      · intro k hk
        rw [hfree, ht2] at *
        split
        · simp [mapFind_mapErase, hk]
        · simp [mapFind_mapAssign, hk]
      · intro hgt
        have hne : ¬ e.occurrences = 1 := by omega
        rw [hinv1.countFor_eq, hfree, if_neg hne, ht2]
        simp [mapFind_mapAssign]
      · intro hone
        have hslot := hinv1.count_slot hlt
        rw [hinv1.countFor_eq]
        rw [hfree, if_pos hone] at hslot ⊢
        rw [ht2]
        simp only [mapFind_mapErase, ↓reduceIte, h7, Pool.countAvailable, List.length_append,
          List.length_singleton, true_and]
        have hge : 1 ≤ Pool.freeAt
            { s.pool with
              m_freeBlocks := s.pool.m_freeBlocks ++ [e.block],
              m_allocatedBlocks :=
                mapErase (Pool.hashKey P l.content) s.pool.m_allocatedBlocks } i := by
          simp [Pool.freeAt, slotCount, h7]
        simp only [h7] at hslot hge
        omega
  · intro i hi hno
    have hslot := hinv.count_slot hi
    have hz : s.pool.entriesAt i = 0 := by
      simp only [Pool.entriesAt, slotCount, List.countP_eq_zero, List.mem_map,
        decide_eq_true_eq]
      rintro x ⟨kv, hkv, rfl⟩ hx
      obtain ⟨l, hl, i2, h1, _, h3⟩ :=
        live_handle_of_entry hinv hh (mapFind_of_mem hinv.keys_nodup hkv)
      rw [hx] at h3
      cases h3
      exact hno l hl h1
    omega
  · intro c hno
    rw [hinv.countFor_eq]
    cases hf : mapFind s.pool.m_allocatedBlocks (Pool.hashKey P c) with
    | none => rfl
    | some e =>
      exfalso
      obtain ⟨l, hl, i, h1, h2, h3⟩ := live_handle_of_entry hinv hh hf
      obtain ⟨u, hu1, hu2, _⟩ := hinv.content _ (mem_of_mapFind hf) i h3
      apply hno l hl _ u h1 hu1
      simp only [Pool.hashKey, stringView_of_readCStr hu1]
      exact hu2
  · intro c hno
    have hnone : mapFind s.pool.m_allocatedBlocks (Pool.hashKey P c) = none := by
      cases hf : mapFind s.pool.m_allocatedBlocks (Pool.hashKey P c) with
      | none => rfl
      | some e =>
        exfalso
        obtain ⟨l, hl, i, h1, h2, _⟩ := live_handle_of_entry hinv hh hf
        exact hno l hl (by rw [h1]; simp) h2
    refine ⟨by rw [hinv.countFor_eq, hnone], ?_⟩
    intro i u hi hu hku
    have hslot := hinv.count_slot hi
    have hz : s.pool.entriesAt i = 0 := by
      simp only [Pool.entriesAt, slotCount, List.countP_eq_zero, List.mem_map,
        decide_eq_true_eq]
      rintro x ⟨kv, hkv, rfl⟩ hx
      obtain ⟨u2, hu1, hu2, _⟩ := hinv.content kv hkv i hx
      rw [hu] at hu1
      cases hu1
      have hkey : kv.1 = Pool.hashKey P c := by
        rw [← hku]
        simp only [Pool.hashKey, stringView_of_readCStr hu]
        exact hu2.symm
      have := mapFind_of_mem hinv.keys_nodup hkv
      rw [hkey, hnone] at this
      cases this
    omega

/-- Witness for C2: the sample pool, whose only handle has occurrence count
one. -/
theorem release_postcondition_witness :
    Reachable sampleParams never sampleFull ∧
    ((∀ l ∈ sampleFull.live, ∀ a, l.handle.m_data = some a →
      ∃ t e i p1, readCStr sampleFull.pool.m_pool a = some t ∧
        mapFind sampleFull.pool.m_allocatedBlocks (Pool.hashKey sampleParams t) = some e ∧
        e.block = some i ∧ i < sampleParams.TSize ∧ a = i * sampleParams.PHYSICAL_SIZE ∧
        Pool.countFor sampleParams sampleFull.pool t = e.occurrences ∧ 1 ≤ e.occurrences ∧
        Pool.release sampleParams sampleFull.pool l.handle = some p1 ∧
        p1.m_pool = sampleFull.pool.m_pool ∧
        (∀ k, k ≠ Pool.hashKey sampleParams t →
          mapFind p1.m_allocatedBlocks k = mapFind sampleFull.pool.m_allocatedBlocks k) ∧
        (1 < e.occurrences →
          Pool.countFor sampleParams p1 t = e.occurrences - 1 ∧
          mapFind p1.m_allocatedBlocks (Pool.hashKey sampleParams t)
            = some ⟨e.block, e.occurrences - 1⟩ ∧
          p1.m_freeBlocks = sampleFull.pool.m_freeBlocks) ∧
        (e.occurrences = 1 →
          mapFind p1.m_allocatedBlocks (Pool.hashKey sampleParams t) = none ∧
          Pool.countFor sampleParams p1 t = 0 ∧
          p1.m_freeBlocks = sampleFull.pool.m_freeBlocks ++ [some i] ∧
          Pool.countAvailable p1 = Pool.countAvailable sampleFull.pool + 1 ∧
          p1.freeAt i = 1 ∧ p1.entriesAt i = 0)) ∧
    (∀ i, i < sampleParams.TSize →
      (∀ l ∈ sampleFull.live, l.handle.m_data ≠ some (i * sampleParams.PHYSICAL_SIZE)) →
      sampleFull.pool.freeAt i = 1 ∧ sampleFull.pool.entriesAt i = 0) ∧
    (∀ c, (∀ l ∈ sampleFull.live, ∀ a u, l.handle.m_data = some a →
        readCStr sampleFull.pool.m_pool a = some u →
        Pool.hashKey sampleParams u ≠ Pool.hashKey sampleParams c) →
      Pool.countFor sampleParams sampleFull.pool c = 0) ∧
    (∀ c, (∀ l ∈ sampleFull.live, l.handle.m_data ≠ none →
        Pool.hashKey sampleParams l.content ≠ Pool.hashKey sampleParams c) →
      Pool.countFor sampleParams sampleFull.pool c = 0 ∧
      ∀ i u, i < sampleParams.TSize →
        readCStr sampleFull.pool.m_pool (i * sampleParams.PHYSICAL_SIZE) = some u →
        Pool.hashKey sampleParams u = Pool.hashKey sampleParams c →
        sampleFull.pool.freeAt i = 1 ∧ sampleFull.pool.entriesAt i = 0)) :=
  ⟨sampleFull_reachable never,
    release_postcondition sampleParams sampleFull (sampleFull_reachable never)⟩

/-! ## Construction (C11) -/

theorem fresh_pool (P : Params) (garbage : Nat → Nat) (hN : P.TSize ≤ INT_MAX)
    (hb : P.PHYSICAL_SIZE * P.TSize < SIZE_MOD) :
    ∃ p, Pool.construct P garbage = some p ∧
      Pool.countAvailable p = P.TSize ∧ Pool.countReserved p = 0 ∧
      (∀ c, Pool.countFor P p c = 0) ∧
      Pool.numBytes P p = P.PHYSICAL_SIZE * P.TSize ∧
      Pool.maxStringSize P p = P.PHYSICAL_SIZE ∧
      p.m_pool.length = P.PHYSICAL_SIZE * P.TSize ∧
      (∀ i, i < P.TSize → ∃ b, p.m_blocks[i]? = some b ∧
        b.data = some (i * P.PHYSICAL_SIZE) ∧
        i * P.PHYSICAL_SIZE + P.PHYSICAL_SIZE ≤ p.m_pool.length) ∧
      (∀ i j, i < j →
        i * P.PHYSICAL_SIZE + P.PHYSICAL_SIZE ≤ j * P.PHYSICAL_SIZE) := by
  obtain ⟨p, e1, e2, e3, e4, e5, e6⟩ := construct_spec P garbage hN hb
  have hinv := inv_construct e1
  have hlen : p.m_pool.length = P.PHYSICAL_SIZE * P.TSize := hinv.mem_len
  refine ⟨p, e1, by simp [Pool.countAvailable, e4], ?_, ?_, ?_, rfl, hlen, ?_, ?_⟩
  · rw [hinv.countReserved_eq, e2]
    rfl
  · intro c
    rw [hinv.countFor_eq, e2]
    rfl
  · simp only [Pool.numBytes]
    exact Nat.mod_eq_of_lt hb
  · intro i hi
    refine ⟨_, e6 i hi, rfl, ?_⟩
    rw [hlen]
    have : (i + 1) * P.PHYSICAL_SIZE ≤ P.TSize * P.PHYSICAL_SIZE :=
      Nat.mul_le_mul_right _ hi
    have e : (i + 1) * P.PHYSICAL_SIZE = i * P.PHYSICAL_SIZE + P.PHYSICAL_SIZE := by ring
    have e' : P.TSize * P.PHYSICAL_SIZE = P.PHYSICAL_SIZE * P.TSize := by ring
    omega
  · intro i j hij
    have : (i + 1) * P.PHYSICAL_SIZE ≤ j * P.PHYSICAL_SIZE := Nat.mul_le_mul_right _ hij
    have e : (i + 1) * P.PHYSICAL_SIZE = i * P.PHYSICAL_SIZE + P.PHYSICAL_SIZE := by ring
    omega

/-- C11, the code at `TSize = 2 ^ 31 + 1`: the loop counter `ii` of the
constructor is an `int`, its increment past `INT_MAX` is undefined, and the
constructor has no defined result, while the claim promises a pool with all
`TSize` slots in the free list. -/
theorem construct_undefined_past_int_max :
    INT_MAX < hugeParams.TSize ∧ Pool.construct hugeParams (fun _ => 0) = none := by
  refine ⟨by decide, ?_⟩
  cases h : Pool.construct hugeParams (fun _ => 0) with
  | none => rfl
  | some p =>
    have := construct_tsize h
    simp [hugeParams, INT_MAX] at this

/-! ## The logical size of a block (C19) -/

theorem write_keeps_block (b : Block) (mem data : List Nat) (r : Block × List Nat)
    (h : b.write mem data = some r) : r.1 = b := by
  simp only [Block.write] at h
  cases ha : b.m_addressStart with
  | none => simp [ha] at h
  | some start =>
    simp only [ha] at h
    cases hw : Block.writeLoop data start (strlen data) 0 mem with
    | none => simp [hw] at h
    | some mem1 =>
      simp only [hw] at h
      cases hs : store mem1 (start + strlen data) 0 with
      | none => simp [hs] at h
      | some mem2 =>
        simp only [hs, Option.some.injEq] at h
        rw [← h]

theorem clean_logicalSize (b : Block) : b.clean.logicalSize = 0 := rfl

/-- C19, the code on a one-character string: `write` stores the character and
the terminator and assigns no field, so `logicalSize()` of a block that was
constructed with `m_dataSize` zero is still `0` after the write, while the claim
says it is `1`, the length of the content. -/
theorem write_leaves_logicalSize_zero :
    strlen [97] + 1 ≤ 16 ∧ strlen [97] = 1 ∧
    Block.write { m_size := 16, m_dataSize := 0, m_addressStart := some 0 }
        (List.replicate 16 0) [97] =
      some ({ m_size := 16, m_dataSize := 0, m_addressStart := some 0 },
        97 :: List.replicate 15 0) ∧
    (Block.write { m_size := 16, m_dataSize := 0, m_addressStart := some 0 }
        (List.replicate 16 0) [97]).map (fun r => r.1.logicalSize) = some 0 := by
  decide

/-! ## `countFor` leaves the pool alone (C18) -/

theorem countForM_eq (P : Params) (p : Pool) (c : List Nat) :
    Pool.hasStringM P p c = (Pool.hasString P p c, p) ∧
    Pool.countForM P p c =
      ((match mapFind p.m_allocatedBlocks (Pool.hashKey P c) with
        | some e => e.occurrences
        | none => 0), p) := by
  have hcase : mapFind p.m_allocatedBlocks (Pool.hashKey P c) = none ∨
      ∃ e, mapFind p.m_allocatedBlocks (Pool.hashKey P c) = some e := by
    cases mapFind p.m_allocatedBlocks (Pool.hashKey P c) with
    | none => exact Or.inl rfl
    | some e => exact Or.inr ⟨e, rfl⟩
  have hM : Pool.hasStringM P p c = (Pool.hasString P p c, p) := by
    rcases hcase with hf | ⟨e, hf⟩
    · simp [Pool.hasStringM, Pool.hasString, mapSubscript, hf]
    · simp [Pool.hasStringM, Pool.hasString, mapSubscript, hf]
  refine ⟨hM, ?_⟩
  rcases hcase with hf | ⟨e, hf⟩
  · simp [Pool.countForM, hM, Pool.hasString, mapSubscript, hf]
  · by_cases he : e.occurrences > 0
    · simp [Pool.countForM, hM, Pool.hasString, mapSubscript, hf, he]
    · have : e.occurrences = 0 := by omega
      simp [Pool.countForM, hM, Pool.hasString, mapSubscript, hf, this]

/-- C18 (`countFor` is a pure query).  In every pool state and for every
content, `countFor`, run with the map as state and with `operator[]` inserting
a value-initialised entry for an absent key, returns the occurrence count of the
entry under the hash key of the content, or `0` when there is none, and leaves
the pool (map, free list, bytes, blocks) as it was: the subscript is reached
only for a key that `find` located.  So `countReserved()` and the outcome of a
later `findOrCreate` are those of the pool before the query. -/
theorem countFor_pure (P : Params) (p : Pool) (c : List Nat) :
    Pool.countForM P p c =
      ((match mapFind p.m_allocatedBlocks (Pool.hashKey P c) with
        | some e => e.occurrences
        | none => 0), p) ∧
    (Pool.countForM P p c).1 = Pool.countFor P p c ∧
    (Pool.hasStringM P p c) = (Pool.hasString P p c, p) ∧
    (Pool.countForM P p c).2.m_allocatedBlocks = p.m_allocatedBlocks ∧
    Pool.countReserved (Pool.countForM P p c).2 = Pool.countReserved p ∧
    (∀ c1, Pool.findOrCreate P (Pool.countForM P p c).2 c1 = Pool.findOrCreate P p c1) := by
  obtain ⟨hM, hC⟩ := countForM_eq P p c
  have hC2 : (Pool.countForM P p c).2 = p := by rw [hC]
  refine ⟨hC, ?_, hM, by rw [hC2], by rw [hC2], by intro c1; rw [hC2]⟩
  rw [hC]
  cases hf : mapFind p.m_allocatedBlocks (Pool.hashKey P c) with
  | none => simp [Pool.countFor, Pool.hasString, hf]
  | some e =>
    by_cases he : e.occurrences > 0
    · simp [Pool.countFor, Pool.hasString, hf, he]
    · have : e.occurrences = 0 := by omega
      simp [Pool.countFor, Pool.hasString, hf, this]

/-- Example for C18: a query for a key that the full pool of `lengthParams`
does not hold returns `0` and inserts nothing. -/
theorem countFor_pure_witness :
    mapFind lengthFull.pool.m_allocatedBlocks (Pool.hashKey lengthParams [8, 9]) = none ∧
    Pool.countForM lengthParams lengthFull.pool [8, 9] = (0, lengthFull.pool) :=
  ⟨by decide, (countFor_pure lengthParams lengthFull.pool [8, 9]).1⟩

/-! ## Keys and stored strings (C15) -/

theorem Inv.stored_eq {P : Params} {p : Pool} (hinv : Inv P p) {e : PoolEntry} {i : Nat}
    (he : e.block = some i) (hi : i < P.TSize) :
    Pool.stored p e = readCStr p.m_pool (i * P.PHYSICAL_SIZE) := by
  obtain ⟨b, hb, hba⟩ := hinv.block_at hi
  simp [Pool.stored, he, hb, Block.data, hba]

theorem stored_congr {p p1 : Pool} {e e1 : PoolEntry} (hm : p1.m_pool = p.m_pool)
    (hb : p1.m_blocks = p.m_blocks) (he : e1.block = e.block) :
    Pool.stored p1 e1 = Pool.stored p e := by
  simp [Pool.stored, hm, hb, he]

theorem free_stable {P : Params} {p : Pool} (hinv : Inv P p) (t : List Nat) :
    (Pool.free P p t).m_pool = p.m_pool ∧ (Pool.free P p t).m_blocks = p.m_blocks ∧
    ∀ k e, mapFind p.m_allocatedBlocks k = some e →
      mapFind (Pool.free P p t).m_allocatedBlocks k = none ∨
      ∃ e1, mapFind (Pool.free P p t).m_allocatedBlocks k = some e1 ∧ e1.block = e.block := by
  have hcase : mapFind p.m_allocatedBlocks (Pool.hashKey P t) = none ∨
      ∃ e, mapFind p.m_allocatedBlocks (Pool.hashKey P t) = some e := by
    cases mapFind p.m_allocatedBlocks (Pool.hashKey P t) with
    | none => exact Or.inl rfl
    | some e => exact Or.inr ⟨e, rfl⟩
  rcases hcase with hf | ⟨e0, hf⟩
  · rw [free_absent hinv hf]
    exact ⟨rfl, rfl, fun k e he => Or.inr ⟨e, he, rfl⟩⟩
  · rw [free_present hinv hf]
    by_cases hone : e0.occurrences = 1
    · rw [if_pos hone]
      refine ⟨rfl, rfl, ?_⟩
      intro k e he
      by_cases hk : k = Pool.hashKey P t
      · left
        simp [mapFind_mapErase, hk]
      · right
        exact ⟨e, by simp [mapFind_mapErase, hk, he], rfl⟩
    · rw [if_neg hone]
      refine ⟨rfl, rfl, ?_⟩
      intro k e he
      right
      by_cases hk : k = Pool.hashKey P t
      · subst hk
        rw [hf] at he
        cases he
        exact ⟨⟨e0.block, e0.occurrences - 1⟩, by simp [mapFind_mapAssign], rfl⟩
      · exact ⟨e, by simp [mapFind_mapAssign, hk, he], rfl⟩

theorem findOrCreate_stable {P : Params} {p : Pool} (hinv : Inv P p) (c : List Nat)
    (hd : PoolString) (p1 : Pool) (hfo : Pool.findOrCreate P p c = .returned hd p1) :
    p1.m_pool.length = p.m_pool.length ∧ p1.m_blocks = p.m_blocks ∧
    (p1.m_pool = p.m_pool ∨
      ∃ rest i, p.m_freeBlocks = rest ++ [some i] ∧ p1.m_freeBlocks = rest ∧
        i < P.TSize ∧ hd.m_data = some (i * P.PHYSICAL_SIZE) ∧
        strlen c + 1 ≤ P.PHYSICAL_SIZE ∧
        i * P.PHYSICAL_SIZE + P.PHYSICAL_SIZE ≤ p.m_pool.length ∧
        ∀ j, (j < i * P.PHYSICAL_SIZE ∨ i * P.PHYSICAL_SIZE + strlen c < j) →
          p1.m_pool[j]? = p.m_pool[j]?) ∧
    ∀ k e, mapFind p.m_allocatedBlocks k = some e →
      ∃ e1, mapFind p1.m_allocatedBlocks k = some e1 ∧ e1.block = e.block ∧
        Pool.stored p1 e1 = Pool.stored p e := by
  have hinv1 := (inv_findOrCreate hinv c).1 hd p1 hfo
  rcases findOrCreate_cases hinv c with ⟨_, hc⟩ | ⟨_, e0, i, hf, hb, _, hc⟩ | ⟨_, _, _, hc⟩ |
    ⟨hfit, hf, rest, i, mem1, hfree, hi, hc, hlen, hframe, _⟩
  · rw [hc] at hfo
    cases hfo
    exact ⟨rfl, rfl, Or.inl rfl, fun k e he => ⟨e, he, rfl, rfl⟩⟩
  · rw [hc] at hfo
    cases hfo
    refine ⟨rfl, rfl, Or.inl rfl, ?_⟩
    intro k e he
    by_cases hk : k = Pool.hashKey P c
    · subst hk
      rw [hf] at he
      cases he
      exact ⟨⟨e0.block, e0.occurrences + 1⟩, by simp [mapFind_mapAssign], rfl,
        stored_congr rfl rfl rfl⟩
    · exact ⟨e, by simp [mapFind_mapAssign, hk, he], rfl, stored_congr rfl rfl rfl⟩
  · rw [hc] at hfo
    cases hfo
  · rw [hc] at hfo
    cases hfo
    have hbound : i * P.PHYSICAL_SIZE + P.PHYSICAL_SIZE ≤ p.m_pool.length := by
      have := slot_bound (C := P.PHYSICAL_SIZE) (n := P.PHYSICAL_SIZE - 1) hi (by omega)
      rw [hinv.mem_len]
      omega
    refine ⟨hlen, rfl, Or.inr ⟨rest, i, hfree, rfl, hi, rfl, hfit, hbound, hframe⟩, ?_⟩
    intro k e he
    have hk : ¬ k = Pool.hashKey P c := by
      rintro rfl
      rw [hf] at he
      cases he
    have hfind : mapFind (p.m_allocatedBlocks ++
        [(Pool.hashKey P c, (⟨some i, 1⟩ : PoolEntry))]) k = some e := by
      rw [← mapAssign_of_absent _ hf, mapFind_mapAssign, if_neg hk]
      exact he
    refine ⟨e, hfind, rfl, ?_⟩
    have hmem := mem_of_mapFind he
    obtain ⟨i2, hi2, hlt2⟩ := hinv.entry_valid hmem
    obtain ⟨u, hu1, _, hu3⟩ := hinv.content _ hmem i2 hi2
    simp only at hi2
    rw [hinv1.stored_eq hi2 hlt2, hinv.stored_eq hi2 hlt2, hu1]
    refine readCStr_frame hu1 ?_
    intro j hj1 hj2
    apply hframe
    have hij : i ≠ i2 := by
      rintro rfl
      have hnd := hinv.slots_nodup
      rw [hfree] at hnd
      have h1 : some i ∈ rest ++ [some i] := by simp
      have h2 : some i ∈ p.m_allocatedBlocks.map (fun kv => kv.2.block) :=
        List.mem_map.2 ⟨_, hmem, hi2⟩
      exact List.disjoint_of_nodup_append hnd h1 h2
    exact slot_disjoint hij hfit hj1 (by omega)

theorem release_stable {P : Params} {p : Pool} (hinv : Inv P p) (hd : PoolString) (p1 : Pool)
    (hrel : Pool.release P p hd = some p1) :
    p1.m_pool = p.m_pool ∧ p1.m_blocks = p.m_blocks ∧
    ∀ k e, mapFind p.m_allocatedBlocks k = some e →
      mapFind p1.m_allocatedBlocks k = none ∨
      ∃ e1, mapFind p1.m_allocatedBlocks k = some e1 ∧ e1.block = e.block ∧
        Pool.stored p1 e1 = Pool.stored p e := by
  simp only [Pool.release] at hrel
  have hsame : ∀ k e, mapFind p.m_allocatedBlocks k = some e →
      mapFind p.m_allocatedBlocks k = none ∨
      ∃ e1, mapFind p.m_allocatedBlocks k = some e1 ∧ e1.block = e.block ∧
        Pool.stored p e1 = Pool.stored p e :=
    fun k e he => Or.inr ⟨e, he, rfl, rfl⟩
  cases hc : hd.m_cleanup with
  | noop =>
    simp only [hc, Option.some.injEq] at hrel
    subst hrel
    exact ⟨rfl, rfl, hsame⟩
  | freeData d =>
    cases d with
    | none => simp [hc] at hrel
    | some a =>
      simp only [hc] at hrel
      cases hs : readCStr p.m_pool a with
      | none => simp [hs] at hrel
      | some t =>
        simp only [hs, Option.some.injEq] at hrel
        subst hrel
        obtain ⟨h1, h2, h3⟩ := free_stable hinv t
        refine ⟨h1, h2, ?_⟩
        intro k e he
        rcases h3 k e he with h4 | ⟨e1, h4, h5⟩
        · exact Or.inl h4
        · exact Or.inr ⟨e1, h4, h5, stored_congr h1 h2 h5⟩

theorem step_stable {P : Params} {s s1 : Sys} (hr : Reachable P anyTime s) (op : Op)
    (hs : Sys.step P s op = some s1) :
    Reachable P anyTime s1 ∧
    ∀ k e, mapFind s.pool.m_allocatedBlocks k = some e →
      mapFind s1.pool.m_allocatedBlocks k = none ∨
      ∃ e1, mapFind s1.pool.m_allocatedBlocks k = some e1 ∧ e1.block = e.block ∧
        Pool.stored s1.pool e1 = Pool.stored s.pool e := by
  have hinv := inv_of_reachable hr
  cases op with
  | intern c =>
    simp only [Sys.step] at hs
    refine ⟨Reachable.intern s c s1 hr hs, ?_⟩
    simp only [Sys.intern] at hs
    cases hf : Pool.findOrCreate P s.pool c with
    | undefined => simp [hf] at hs
    | threw p1 =>
      simp only [hf, Option.some.injEq] at hs
      subst hs
      rw [(inv_findOrCreate hinv c).2 p1 hf]
      exact fun k e he => Or.inr ⟨e, he, rfl, rfl⟩
    | returned hd p1 =>
      simp only [hf, Option.some.injEq] at hs
      subst hs
      exact fun k e he => Or.inr ((findOrCreate_stable hinv c hd p1 hf).2.2.2 k e he)
  | release i =>
    simp only [Sys.step] at hs
    refine ⟨Reachable.release s i s1 hr hs, ?_⟩
    simp only [Sys.release] at hs
    cases hl : s.live[i]? with
    | none => simp [hl] at hs
    | some l =>
      simp only [hl] at hs
      cases hrel : Pool.release P s.pool l.handle with
      | none => simp [hrel] at hs
      | some p1 =>
        simp only [hrel, Option.some.injEq] at hs
        subst hs
        exact (release_stable hinv l.handle p1 hrel).2.2
  | countFor c =>
    simp only [Sys.step, (countForM_eq P s.pool c).2, Option.some.injEq] at hs
    subst hs
    exact ⟨hr, fun k e he => Or.inr ⟨e, he, rfl, rfl⟩⟩

theorem run_stable {P : Params} (ops : List Op) :
    ∀ (s s1 : Sys), Reachable P anyTime s → Sys.run P s ops = some s1 →
    ∀ k e, mapFind s.pool.m_allocatedBlocks k = some e →
      (∃ e1, mapFind s1.pool.m_allocatedBlocks k = some e1 ∧ e1.block = e.block ∧
        Pool.stored s1.pool e1 = Pool.stored s.pool e) ∨
      ∃ ops1 ops2 s2, ops = ops1 ++ ops2 ∧ Sys.run P s ops1 = some s2 ∧
        mapFind s2.pool.m_allocatedBlocks k = none := by
  induction ops with
  | nil =>
    intro s s1 _ hrun k e he
    simp only [Sys.run, Option.some.injEq] at hrun
    subst hrun
    exact Or.inl ⟨e, he, rfl, rfl⟩
  | cons op ops ih =>
    intro s s1 hr hrun k e he
    simp only [Sys.run] at hrun
    cases hs : Sys.step P s op with
    | none => simp [hs] at hrun
    | some s2 =>
      simp only [hs] at hrun
      obtain ⟨hr2, hstep⟩ := step_stable hr op hs
      rcases hstep k e he with hnone | ⟨e2, he2, hb2, hst2⟩
      · right
        exact ⟨[op], ops, s2, rfl, by simp [Sys.run, hs], hnone⟩
      · rcases ih s2 s1 hr2 hrun k e2 he2 with ⟨e1, h1, h2, h3⟩ | ⟨ops1, ops2, s3, h1, h2, h3⟩
        · left
          exact ⟨e1, h1, by rw [h2, hb2], by rw [h3, hst2]⟩
        · right
          exact ⟨op :: ops1, ops2, s3, by rw [h1]; rfl, by simp [Sys.run, hs, h2], h3⟩

/-- C13 (interned content is stable).  In every reachable state: a
`findOrCreate` that returns either leaves the bytes as they were or pops one
slot from the free list and changes bytes only among the first
`strlen(content) + 1 ≤ capacity` bytes of that slot, which lie inside the
buffer; every entry that was in the map before the call is still there, with the
same slot and the same stored string.  A release leaves all bytes as they were.
Along any sequence of `findOrCreate`, release and `countFor` calls, an entry of
the map either is removed at some point of the sequence or is there at the end
with the same slot and the same stored string. -/
theorem interned_content_stable (P : Params) (s : Sys) (h : Reachable P anyTime s) :
    (∀ c hd p1, Pool.findOrCreate P s.pool c = .returned hd p1 →
      p1.m_pool.length = s.pool.m_pool.length ∧ p1.m_blocks = s.pool.m_blocks ∧
      (p1.m_pool = s.pool.m_pool ∨
        ∃ rest i, s.pool.m_freeBlocks = rest ++ [some i] ∧ p1.m_freeBlocks = rest ∧
          i < P.TSize ∧ hd.m_data = some (i * P.PHYSICAL_SIZE) ∧
          strlen c + 1 ≤ P.PHYSICAL_SIZE ∧
          i * P.PHYSICAL_SIZE + P.PHYSICAL_SIZE ≤ s.pool.m_pool.length ∧
          ∀ j, (j < i * P.PHYSICAL_SIZE ∨ i * P.PHYSICAL_SIZE + strlen c < j) →
            p1.m_pool[j]? = s.pool.m_pool[j]?) ∧
      ∀ k e, mapFind s.pool.m_allocatedBlocks k = some e →
        ∃ e1, mapFind p1.m_allocatedBlocks k = some e1 ∧ e1.block = e.block ∧
          Pool.stored p1 e1 = Pool.stored s.pool e) ∧
    (∀ hd p1, Pool.release P s.pool hd = some p1 →
      p1.m_pool = s.pool.m_pool ∧ p1.m_blocks = s.pool.m_blocks) ∧
    (∀ ops s1, Sys.run P s ops = some s1 →
      ∀ k e, mapFind s.pool.m_allocatedBlocks k = some e →
        (∃ e1, mapFind s1.pool.m_allocatedBlocks k = some e1 ∧ e1.block = e.block ∧
          Pool.stored s1.pool e1 = Pool.stored s.pool e) ∨
        ∃ ops1 ops2 s2, ops = ops1 ++ ops2 ∧ Sys.run P s ops1 = some s2 ∧
          mapFind s2.pool.m_allocatedBlocks k = none) := by
  have hinv := inv_of_reachable h
  refine ⟨fun c hd p1 hfo => findOrCreate_stable hinv c hd p1 hfo, ?_,
    fun ops s1 hrun => run_stable ops s s1 h hrun⟩
  intro hd p1 hrel
  obtain ⟨h1, h2, _⟩ := release_stable hinv hd p1 hrel
  exact ⟨h1, h2⟩

/-- Witness for C13: the sample pool with one entry. -/
theorem interned_content_stable_witness :
    Reachable sampleParams anyTime sampleFull ∧
    ((∀ c hd p1, Pool.findOrCreate sampleParams sampleFull.pool c = .returned hd p1 →
      p1.m_pool.length = sampleFull.pool.m_pool.length ∧
      p1.m_blocks = sampleFull.pool.m_blocks ∧
      (p1.m_pool = sampleFull.pool.m_pool ∨
        ∃ rest i, sampleFull.pool.m_freeBlocks = rest ++ [some i] ∧ p1.m_freeBlocks = rest ∧
          i < sampleParams.TSize ∧ hd.m_data = some (i * sampleParams.PHYSICAL_SIZE) ∧
          strlen c + 1 ≤ sampleParams.PHYSICAL_SIZE ∧
          i * sampleParams.PHYSICAL_SIZE + sampleParams.PHYSICAL_SIZE
            ≤ sampleFull.pool.m_pool.length ∧
          ∀ j, (j < i * sampleParams.PHYSICAL_SIZE ∨
              i * sampleParams.PHYSICAL_SIZE + strlen c < j) →
            p1.m_pool[j]? = sampleFull.pool.m_pool[j]?) ∧
      ∀ k e, mapFind sampleFull.pool.m_allocatedBlocks k = some e →
        ∃ e1, mapFind p1.m_allocatedBlocks k = some e1 ∧ e1.block = e.block ∧
          Pool.stored p1 e1 = Pool.stored sampleFull.pool e) ∧
    (∀ hd p1, Pool.release sampleParams sampleFull.pool hd = some p1 →
      p1.m_pool = sampleFull.pool.m_pool ∧ p1.m_blocks = sampleFull.pool.m_blocks) ∧
    (∀ ops s1, Sys.run sampleParams sampleFull ops = some s1 →
      ∀ k e, mapFind sampleFull.pool.m_allocatedBlocks k = some e →
        (∃ e1, mapFind s1.pool.m_allocatedBlocks k = some e1 ∧ e1.block = e.block ∧
          Pool.stored s1.pool e1 = Pool.stored sampleFull.pool e) ∨
        ∃ ops1 ops2 s2, ops = ops1 ++ ops2 ∧ Sys.run sampleParams sampleFull ops1 = some s2 ∧
          mapFind s2.pool.m_allocatedBlocks k = none)) :=
  ⟨sampleFull_reachable anyTime,
    interned_content_stable sampleParams sampleFull (sampleFull_reachable anyTime)⟩

/-! ## Intern, then release (C17) -/

/-- C17 (intern then release).  In every reachable state, when `findOrCreate`
returns a valid handle, releasing that handle right away is defined and gives a
pool with the free list of before the `findOrCreate` (same pointers, same
order), a map that holds under every key what it held before, the same blocks
and the same `countReserved()`; the bytes are those left by the `findOrCreate`,
which differ from the ones before at most inside the slot that was last in the
free list. -/
theorem intern_release_identity (P : Params) (s : Sys) (h : Reachable P anyTime s)
    (c : List Nat) (hd : PoolString) (p1 : Pool)
    (hfo : Pool.findOrCreate P s.pool c = .returned hd p1) (hvalid : hd.m_data ≠ none) :
    ∃ p2, Pool.release P p1 hd = some p2 ∧
      p2.m_freeBlocks = s.pool.m_freeBlocks ∧
      (∀ k, mapFind p2.m_allocatedBlocks k = mapFind s.pool.m_allocatedBlocks k) ∧
      (p2.m_allocatedBlocks.map Prod.fst).Nodup ∧
      (s.pool.m_allocatedBlocks.map Prod.fst).Nodup ∧
      p2.m_blocks = s.pool.m_blocks ∧
      Pool.countReserved p2 = Pool.countReserved s.pool ∧
      p2.m_pool = p1.m_pool ∧
      (p2.m_pool = s.pool.m_pool ∨
        ∃ rest i, s.pool.m_freeBlocks = rest ++ [some i] ∧
          ∀ j, (j < i * P.PHYSICAL_SIZE ∨ i * P.PHYSICAL_SIZE + P.PHYSICAL_SIZE ≤ j) →
            p2.m_pool[j]? = s.pool.m_pool[j]?) := by
  have hinv := inv_of_reachable h
  have hinv1 := (inv_findOrCreate hinv c).1 hd p1 hfo
  rcases findOrCreate_cases hinv c with ⟨_, hc⟩ | ⟨_, e0, i, hf, hb, _, hc⟩ | ⟨_, _, _, hc⟩ |
    ⟨hfit, hf, rest, i, mem1, hfree, hi, hc, hlen, hframe, _⟩
  · rw [hc] at hfo
    cases hfo
    exact absurd rfl hvalid
  · rw [hc] at hfo
    cases hfo
    have hf1 : mapFind
        (mapAssign (Pool.hashKey P c) ⟨e0.block, e0.occurrences + 1⟩ s.pool.m_allocatedBlocks)
        (Pool.hashKey P c) = some ⟨e0.block, e0.occurrences + 1⟩ := by
      simp [mapFind_mapAssign]
    obtain ⟨t, _, _, _, hrel, hfreeEq⟩ := release_valid hinv1
      (l := ⟨⟨some (i * P.PHYSICAL_SIZE), .freeData (some (i * P.PHYSICAL_SIZE))⟩, c⟩)
      (i := i) (e := ⟨e0.block, e0.occurrences + 1⟩) rfl hf1 hb
    have hpos := hinv.occ_pos _ (mem_of_mapFind hf)
    simp only at hpos
    have hne : ¬ e0.occurrences + 1 = 1 := by omega
    simp only [hne, ↓reduceIte, Nat.add_sub_cancel] at hfreeEq
    have hinv2 : Inv P (Pool.free P _ t) := inv_free hinv1 t
    refine ⟨_, hrel, by rw [hfreeEq], ?_, hinv2.keys_nodup, hinv.keys_nodup, by rw [hfreeEq],
      ?_, by rw [hfreeEq], Or.inl (by rw [hfreeEq])⟩
    · intro k
      rw [hfreeEq]
      simp only [mapFind_mapAssign]
      by_cases hk : k = Pool.hashKey P c
      · subst hk
        simp [hf]
      · simp [hk]
    · rw [hinv2.countReserved_eq, hinv.countReserved_eq]
      have h1 := hinv2.length_sum
      have h2 := hinv.length_sum
      rw [hfreeEq] at h1
      rw [hfreeEq]
      simp only at h1 ⊢
      omega
  · rw [hc] at hfo
    cases hfo
  · rw [hc] at hfo
    cases hfo
    have hassign := mapAssign_of_absent (⟨some i, 1⟩ : PoolEntry) hf
    have hf1 : mapFind (s.pool.m_allocatedBlocks ++ [(Pool.hashKey P c, ⟨some i, 1⟩)])
        (Pool.hashKey P c) = some ⟨some i, 1⟩ := by
      rw [← hassign, mapFind_mapAssign, if_pos rfl]
    obtain ⟨t, _, _, _, hrel, hfreeEq⟩ := release_valid hinv1
      (l := ⟨⟨some (i * P.PHYSICAL_SIZE), .freeData (some (i * P.PHYSICAL_SIZE))⟩, c⟩)
      (i := i) (e := ⟨some i, 1⟩) rfl hf1 rfl
    simp only [↓reduceIte] at hfreeEq
    have hinv2 : Inv P (Pool.free P _ t) := inv_free hinv1 t
    refine ⟨_, hrel, by rw [hfreeEq, hfree], ?_, hinv2.keys_nodup, hinv.keys_nodup,
      by rw [hfreeEq], ?_, by rw [hfreeEq], Or.inr ⟨rest, i, hfree, ?_⟩⟩
    · intro k
      rw [hfreeEq]
      simp only [mapFind_mapErase]
      by_cases hk : k = Pool.hashKey P c
      · subst hk
        simp [hf]
      · rw [if_neg hk, ← hassign, mapFind_mapAssign, if_neg hk]
    · rw [hinv2.countReserved_eq, hinv.countReserved_eq]
      have h1 := hinv2.length_sum
      have h2 := hinv.length_sum
      rw [hfreeEq] at h1
      rw [hfreeEq]
      rw [hfree] at h2
      simp only [List.length_append, List.length_singleton] at h1 h2 ⊢
      omega
    · intro j hj
      rw [hfreeEq]
      apply hframe
      omega

/-- Witness for C17: `[7]` interned into the fresh sample pool and released. -/
theorem intern_release_identity_witness :
    (Reachable sampleParams anyTime sampleFresh ∧
      Pool.findOrCreate sampleParams sampleFresh.pool [7]
        = .returned ⟨some 0, .freeData (some 0)⟩ sampleFull.pool ∧
      (⟨some 0, .freeData (some 0)⟩ : PoolString).m_data ≠ none) ∧
    ∃ p2, Pool.release sampleParams sampleFull.pool ⟨some 0, .freeData (some 0)⟩ = some p2 ∧
      p2.m_freeBlocks = sampleFresh.pool.m_freeBlocks ∧
      (∀ k, mapFind p2.m_allocatedBlocks k = mapFind sampleFresh.pool.m_allocatedBlocks k) ∧
      (p2.m_allocatedBlocks.map Prod.fst).Nodup ∧
      (sampleFresh.pool.m_allocatedBlocks.map Prod.fst).Nodup ∧
      p2.m_blocks = sampleFresh.pool.m_blocks ∧
      Pool.countReserved p2 = Pool.countReserved sampleFresh.pool ∧
      p2.m_pool = sampleFull.pool.m_pool ∧
      (p2.m_pool = sampleFresh.pool.m_pool ∨
        ∃ rest i, sampleFresh.pool.m_freeBlocks = rest ++ [some i] ∧
          ∀ j, (j < i * sampleParams.PHYSICAL_SIZE ∨
              i * sampleParams.PHYSICAL_SIZE + sampleParams.PHYSICAL_SIZE ≤ j) →
            p2.m_pool[j]? = sampleFresh.pool.m_pool[j]?) :=
  ⟨⟨sampleFresh_reachable anyTime, by decide, by decide⟩,
    intern_release_identity sampleParams sampleFresh (sampleFresh_reachable anyTime) [7]
      ⟨some 0, .freeData (some 0)⟩ sampleFull.pool (by decide) (by decide)⟩

/-! ## Two scenarios on a fresh pool (C14, C16) -/

theorem findOrCreate_empty_map {P : Params} {p : Pool} (hinv : Inv P p) {c : List Nat}
    (hfit : strlen c + 1 ≤ P.PHYSICAL_SIZE) (hmap : p.m_allocatedBlocks = [])
    {rest : List (Option Nat)} {i : Nat} (hfree : p.m_freeBlocks = rest ++ [some i]) :
    ∃ mem1, i < P.TSize ∧
      Pool.findOrCreate P p c =
        .returned ⟨some (i * P.PHYSICAL_SIZE), .freeData (some (i * P.PHYSICAL_SIZE))⟩
          { m_allocatedBlocks := [(Pool.hashKey P c, ⟨some i, 1⟩)],
            m_freeBlocks := rest, m_pool := mem1, m_blocks := p.m_blocks } ∧
      readCStr mem1 (i * P.PHYSICAL_SIZE) = some (stringView c) := by
  obtain ⟨i2, mem1, hx, hi, hfo, _, _, hread⟩ :=
    findOrCreate_new hinv hfit (by rw [hmap]; rfl) hfree
  cases hx
  rw [hmap] at hfo
  exact ⟨mem1, hi, by simpa using hfo, hread⟩

theorem fresh_free_list {P : Params} {garbage : Nat → Nat} {p0 : Pool}
    (hfresh : Pool.construct P garbage = some p0) (hN : 0 < P.TSize) :
    p0.m_allocatedBlocks = [] ∧
    p0.m_freeBlocks = (List.range (P.TSize - 1)).map some ++ [some (P.TSize - 1)] := by
  obtain ⟨p, e1, e2, _, e4, _⟩ :=
    construct_spec P garbage (construct_tsize hfresh) (construct_bytes hfresh)
  rw [hfresh] at e1
  cases e1
  refine ⟨e2, ?_⟩
  rw [e4]
  obtain ⟨n, hn⟩ : ∃ n, P.TSize = n + 1 := ⟨P.TSize - 1, by omega⟩
  rw [hn, List.range_succ]
  simp

/-- C14 (hash-only deduplication under a collision).  For any hash function,
on a fresh pool with at least one slot, and for contents `A` and `B` that fit,
differ as C strings and have the same hash key: `findOrCreate(A)` returns a
valid handle, and `findOrCreate(B)` then returns, without throwing, a valid
handle with the same data pointer, at which the pool holds `A` and not `B`;
afterwards `countFor(A)` and `countFor(B)` are both `2` and `countReserved()` is
`1`.  After the first call the free list has `TSize - 1` elements, so with one
slot in all the second call runs with no free slot. -/
theorem collision_shares_slot (P : Params) (garbage : Nat → Nat) (p0 : Pool)
    (hfresh : Pool.construct P garbage = some p0) (hN : 0 < P.TSize) (A B : List Nat)
    (hA : strlen A + 1 ≤ P.PHYSICAL_SIZE) (hB : strlen B + 1 ≤ P.PHYSICAL_SIZE)
    (hkey : Pool.hashKey P A = Pool.hashKey P B) (hne : stringView A ≠ stringView B) :
    ∃ a p1 p2,
      Pool.findOrCreate P p0 A = .returned ⟨some a, .freeData (some a)⟩ p1 ∧
      p1.m_freeBlocks.length + 1 = P.TSize ∧
      Pool.findOrCreate P p1 B = .returned ⟨some a, .freeData (some a)⟩ p2 ∧
      readCStr p2.m_pool a = some (stringView A) ∧
      readCStr p2.m_pool a ≠ some (stringView B) ∧
      Pool.countFor P p2 A = 2 ∧ Pool.countFor P p2 B = 2 ∧
      Pool.countReserved p2 = 1 := by
  have hinv0 := inv_construct hfresh
  obtain ⟨hmap0, hfree0⟩ := fresh_free_list hfresh hN
  obtain ⟨mem1, hi, hfo1, hread1⟩ := findOrCreate_empty_map hinv0 hA hmap0 hfree0
  have hinv1 := (inv_findOrCreate hinv0 A).1 _ _ hfo1
  have hf1 : mapFind [(Pool.hashKey P A, (⟨some (P.TSize - 1), 1⟩ : PoolEntry))]
      (Pool.hashKey P B) = some ⟨some (P.TSize - 1), 1⟩ := by
    simp [mapFind, hkey]
  obtain ⟨i2, hi2, _, hfo2⟩ := findOrCreate_present hinv1 hB hf1
  simp only [Option.some.injEq] at hi2
  subst hi2
  have hinv2 := (inv_findOrCreate hinv1 B).1 _ _ hfo2
  refine ⟨_, _, _, hfo1, ?_, hfo2, hread1, ?_, ?_, ?_, ?_⟩
  · have := hinv0.length_sum
    rw [hfree0, hmap0] at this
    simp only [List.length_append, List.length_singleton, List.length_nil] at this
    simp only [List.length_map, List.length_range] at this ⊢
    omega
  · show readCStr mem1 _ ≠ _
    rw [hread1]
    intro hx
    exact hne (Option.some.inj hx)
  · rw [hinv2.countFor_eq]
    simp [mapAssign, mapFind, hkey]
  · rw [hinv2.countFor_eq]
    simp [mapAssign, mapFind, hkey]
  · rw [hinv2.countReserved_eq]
    simp [mapAssign, hkey]

/-- Witness for C14: `[7]` and `[8]` in the fresh pool of `lengthParams`, where
the hash is the length. -/
theorem collision_shares_slot_witness :
    (Pool.construct lengthParams (fun _ => 0) = some sampleFresh.pool ∧
      0 < lengthParams.TSize ∧
      strlen [7] + 1 ≤ lengthParams.PHYSICAL_SIZE ∧
      strlen [8] + 1 ≤ lengthParams.PHYSICAL_SIZE ∧
      Pool.hashKey lengthParams [7] = Pool.hashKey lengthParams [8] ∧
      stringView [7] ≠ stringView [8]) ∧
    ∃ a p1 p2,
      Pool.findOrCreate lengthParams sampleFresh.pool [7]
        = .returned ⟨some a, .freeData (some a)⟩ p1 ∧
      p1.m_freeBlocks.length + 1 = lengthParams.TSize ∧
      Pool.findOrCreate lengthParams p1 [8] = .returned ⟨some a, .freeData (some a)⟩ p2 ∧
      readCStr p2.m_pool a = some (stringView [7]) ∧
      readCStr p2.m_pool a ≠ some (stringView [8]) ∧
      Pool.countFor lengthParams p2 [7] = 2 ∧ Pool.countFor lengthParams p2 [8] = 2 ∧
      Pool.countReserved p2 = 1 :=
  ⟨⟨by decide, by decide, by decide, by decide, by decide, by decide⟩,
    collision_shares_slot lengthParams (fun _ => 0) sampleFresh.pool (by decide) (by decide)
      [7] [8] (by decide) (by decide) (by decide) (by decide)⟩

theorem release_of_read {P : Params} {p : Pool} {a : Nat} {t : List Nat}
    (h : readCStr p.m_pool a = some t) :
    Pool.release P p ⟨some a, .freeData (some a)⟩ = some (Pool.free P p t) := by
  simp [Pool.release, h]

/-- C16 (stale handle after reset).  On a fresh pool with at least one slot and
for contents `A` and `B` that fit, equal or not: `h1 = findOrCreate(A)` is
valid; after `reset()`, `h2 = findOrCreate(B)` is valid and has the data pointer
of `h1`, and `countFor(B)` is `1`; releasing `h1` then removes the entry of `B`:
`countFor(B)` is `0`, the map is empty and the free list is the one after the
reset, with the slot of `B` in it once, although `h2` has not been released; the
later release of `h2` leaves the pool as it is.  Releasing `h1` right after the
reset, with nothing interned in between, leaves the pool as it is. -/
theorem stale_handle_after_reset (P : Params) (garbage : Nat → Nat) (p0 : Pool)
    (hfresh : Pool.construct P garbage = some p0) (hN : 0 < P.TSize) (A B : List Nat)
    (hA : strlen A + 1 ≤ P.PHYSICAL_SIZE) (hB : strlen B + 1 ≤ P.PHYSICAL_SIZE) :
    ∃ i p1 p2 p3 p4,
      Pool.findOrCreate P p0 A =
        .returned ⟨some (i * P.PHYSICAL_SIZE), .freeData (some (i * P.PHYSICAL_SIZE))⟩ p1 ∧
      Pool.reset p1 = some p2 ∧
      Pool.release P p2 ⟨some (i * P.PHYSICAL_SIZE), .freeData (some (i * P.PHYSICAL_SIZE))⟩
        = some p2 ∧
      Pool.findOrCreate P p2 B =
        .returned ⟨some (i * P.PHYSICAL_SIZE), .freeData (some (i * P.PHYSICAL_SIZE))⟩ p3 ∧
      Pool.countFor P p3 B = 1 ∧
      Pool.release P p3 ⟨some (i * P.PHYSICAL_SIZE), .freeData (some (i * P.PHYSICAL_SIZE))⟩
        = some p4 ∧
      Pool.countFor P p4 B = 0 ∧ p4.m_allocatedBlocks = [] ∧
      p4.m_freeBlocks = p2.m_freeBlocks ∧ Pool.countAvailable p4 = P.TSize ∧
      p4.freeAt i = 1 ∧
      Pool.release P p4 ⟨some (i * P.PHYSICAL_SIZE), .freeData (some (i * P.PHYSICAL_SIZE))⟩
        = some p4 := by
  have hinv0 := inv_construct hfresh
  obtain ⟨hmap0, hfree0⟩ := fresh_free_list hfresh hN
  obtain ⟨mem1, hi, hfo1, hread1⟩ := findOrCreate_empty_map hinv0 hA hmap0 hfree0
  have hinv1 := (inv_findOrCreate hinv0 A).1 _ _ hfo1
  obtain ⟨p2, hreset, hmap2, hmem2, hfree2, hinv2⟩ := reset_spec hinv1
  simp only [List.map_cons, List.map_nil] at hfree2
  have hread2 : readCStr p2.m_pool ((P.TSize - 1) * P.PHYSICAL_SIZE)
      = some (stringView A) := by rw [hmem2]; exact hread1
  obtain ⟨mem3, _, hfo3, hread3⟩ := findOrCreate_empty_map hinv2 hB hmap2 hfree2
  have hinv3 := (inv_findOrCreate hinv2 B).1 _ _ hfo3
  have hinv4 := inv_free hinv3 (stringView B)
  have hkeyB : Pool.hashKey P (stringView B) = Pool.hashKey P B := by
    simp only [Pool.hashKey, stringView_idem]
  have hf3 : mapFind [(Pool.hashKey P B, (⟨some (P.TSize - 1), 1⟩ : PoolEntry))]
      (Pool.hashKey P (stringView B)) = some ⟨some (P.TSize - 1), 1⟩ := by
    simp [mapFind, hkeyB]
  have hfree4 := free_present hinv3 (c := stringView B) hf3
  simp only [↓reduceIte, hkeyB] at hfree4
  have hmap4 : (Pool.free P
      { m_allocatedBlocks := [(Pool.hashKey P B, ⟨some (P.TSize - 1), 1⟩)],
        m_freeBlocks := (List.range (P.TSize - 1)).map some, m_pool := mem3,
        m_blocks := p2.m_blocks } (stringView B)).m_allocatedBlocks = [] := by
    rw [hfree4]
    simp [mapErase]
  have hfl4 : (Pool.free P
      { m_allocatedBlocks := [(Pool.hashKey P B, ⟨some (P.TSize - 1), 1⟩)],
        m_freeBlocks := (List.range (P.TSize - 1)).map some, m_pool := mem3,
        m_blocks := p2.m_blocks } (stringView B)).m_freeBlocks = p2.m_freeBlocks := by
    rw [hfree4, hfree2]
  have hmem4 : (Pool.free P
      { m_allocatedBlocks := [(Pool.hashKey P B, ⟨some (P.TSize - 1), 1⟩)],
        m_freeBlocks := (List.range (P.TSize - 1)).map some, m_pool := mem3,
        m_blocks := p2.m_blocks } (stringView B)).m_pool = mem3 := by
    rw [hfree4]
  refine ⟨P.TSize - 1, _, p2, _, _, hfo1, hreset, ?_, hfo3, ?_,
    release_of_read (P := P) hread3, ?_, hmap4, hfl4, ?_, ?_, ?_⟩
  · rw [release_of_read hread2]
    rw [free_absent hinv2 (by rw [hmap2]; rfl)]
  · rw [hinv3.countFor_eq]
    simp [mapFind]
  · rw [hinv4.countFor_eq, hmap4]
    rfl
  · have := hinv4.length_sum
    rw [hmap4] at this
    simpa [Pool.countAvailable] using this
  · have h1 := hinv4.count_slot hi
    have h2 : Pool.entriesAt (Pool.free P
      { m_allocatedBlocks := [(Pool.hashKey P B, ⟨some (P.TSize - 1), 1⟩)],
        m_freeBlocks := (List.range (P.TSize - 1)).map some, m_pool := mem3,
        m_blocks := p2.m_blocks } (stringView B)) (P.TSize - 1) = 0 := by
      simp [Pool.entriesAt, slotCount, hmap4]
    omega
  · have hread4 : readCStr (Pool.free P
      { m_allocatedBlocks := [(Pool.hashKey P B, ⟨some (P.TSize - 1), 1⟩)],
        m_freeBlocks := (List.range (P.TSize - 1)).map some, m_pool := mem3,
        m_blocks := p2.m_blocks } (stringView B)).m_pool ((P.TSize - 1) * P.PHYSICAL_SIZE)
        = some (stringView B) := by rw [hmem4]; exact hread3
    rw [release_of_read hread4]
    rw [free_absent hinv4 (by rw [hmap4]; rfl)]

/-- Witness for C16: `A = [7]` and `B = [8, 9]` in the fresh pool of
`lengthParams`. -/
theorem stale_handle_after_reset_witness :
    (Pool.construct lengthParams (fun _ => 0) = some sampleFresh.pool ∧
      0 < lengthParams.TSize ∧
      strlen [7] + 1 ≤ lengthParams.PHYSICAL_SIZE ∧
      strlen [8, 9] + 1 ≤ lengthParams.PHYSICAL_SIZE) ∧
    ∃ i p1 p2 p3 p4,
      Pool.findOrCreate lengthParams sampleFresh.pool [7] =
        .returned ⟨some (i * lengthParams.PHYSICAL_SIZE),
          .freeData (some (i * lengthParams.PHYSICAL_SIZE))⟩ p1 ∧
      Pool.reset p1 = some p2 ∧
      Pool.release lengthParams p2 ⟨some (i * lengthParams.PHYSICAL_SIZE),
          .freeData (some (i * lengthParams.PHYSICAL_SIZE))⟩ = some p2 ∧
      Pool.findOrCreate lengthParams p2 [8, 9] =
        .returned ⟨some (i * lengthParams.PHYSICAL_SIZE),
          .freeData (some (i * lengthParams.PHYSICAL_SIZE))⟩ p3 ∧
      Pool.countFor lengthParams p3 [8, 9] = 1 ∧
      Pool.release lengthParams p3 ⟨some (i * lengthParams.PHYSICAL_SIZE),
          .freeData (some (i * lengthParams.PHYSICAL_SIZE))⟩ = some p4 ∧
      Pool.countFor lengthParams p4 [8, 9] = 0 ∧ p4.m_allocatedBlocks = [] ∧
      p4.m_freeBlocks = p2.m_freeBlocks ∧ Pool.countAvailable p4 = lengthParams.TSize ∧
      p4.freeAt i = 1 ∧
      Pool.release lengthParams p4 ⟨some (i * lengthParams.PHYSICAL_SIZE),
          .freeData (some (i * lengthParams.PHYSICAL_SIZE))⟩ = some p4 :=
  ⟨⟨by decide, by decide, by decide, by decide⟩,
    stale_handle_after_reset lengthParams (fun _ => 0) sampleFresh.pool (by decide) (by decide)
      [7] [8, 9] (by decide) (by decide)⟩

end StringPool
